import Mathlib

/-! wordle-guesser: a shallow embedding of `src/main.cpp` and `src/Word.cpp`.

Modelling conventions.

* `char` is `Char`, `std::string` is `List Char`.
* `std::set<char>` is a list of letters (`CharSet`); `std::set::insert` keeps an
  existing element and otherwise puts the new one at its place in ascending
  order, so iteration visits the letters in the order `std::set` does.
* `std::map<K, V>` is an association list (`CppMap K V`) looked up from the
  front; `std::map::insert` keeps an existing binding and otherwise puts the new
  binding at its place in ascending key order.
* `int` is `Int`.  Sums of letter frequencies are taken without wrap-around
  (signed overflow is undefined in C++), and strings are taken to be shorter
  than `INT_MAX`, so the `int` loop counters never overflow.  The one place where
  an `int` meets a `size_t` with a possibly negative value (the index test of
  `isWordPossible`) is modelled with the conversion modulo `2 ^ 64`.
* `do { ... } while (...)` of `getMostRelevantWord` is a loop with a fuel
  argument; `none` means the loop did not finish within the fuel (or that
  `words.at(0)` threw).
-/

namespace Wordle

/-! ## Containers -/

/-- The model of `std::set<char>`. -/
abbrev CharSet := List Char

/-- The model of `std::map<K, V>`. -/
abbrev CppMap (κ ν : Type) := List (κ × ν)

namespace CharSet

/-- Mirrors `std::set::contains`. -/
def contains (s : CharSet) (c : Char) : Bool := decide (c ∈ s)

/-- Puts `c` before the first element that is greater than it. -/
def insertSorted (c : Char) : CharSet → CharSet
  | [] => [c]
  | d :: rest => if c < d then c :: d :: rest else d :: insertSorted c rest

/-- Mirrors `std::set::insert`: nothing happens when the element is present. -/
def insert (s : CharSet) (c : Char) : CharSet :=
  if s.contains c then s else insertSorted c s

end CharSet

namespace CppMap

variable {κ ν : Type}

/-- The value bound to `k`, if any (`std::map::find`). -/
def find? [DecidableEq κ] : CppMap κ ν → κ → Option ν
  | [], _ => none
  | (k', v) :: rest, k => if k' = k then some v else find? rest k

/-- Mirrors `std::map::contains`. -/
def contains [DecidableEq κ] (m : CppMap κ ν) (k : κ) : Bool := (find? m k).isSome

/-- Puts the binding before the first binding with a greater key. -/
def insertSorted [LT κ] [DecidableRel (fun a b : κ => a < b)] (k : κ) (v : ν) :
    CppMap κ ν → CppMap κ ν
  | [] => [(k, v)]
  | (k', v') :: rest =>
    if k < k' then (k, v) :: (k', v') :: rest else (k', v') :: insertSorted k v rest

/-- Mirrors `std::map::insert`: nothing happens when the key is present. -/
def insert [DecidableEq κ] [LT κ] [DecidableRel (fun a b : κ => a < b)]
    (m : CppMap κ ν) (k : κ) (v : ν) : CppMap κ ν :=
  if contains m k then m else insertSorted k v m

/-- Applies `f` in place to the value bound to `k` (a write through the
reference returned by `at(k)`); nothing happens when `k` is absent. -/
def modify [DecidableEq κ] (f : ν → ν) : CppMap κ ν → κ → CppMap κ ν
  | [], _ => []
  | (k', v) :: rest, k => if k' = k then (k', f v) :: rest else (k', v) :: modify f rest k

/-- Mirrors `++m[k]` on a `std::map<K, int>`: `operator[]` creates the binding
`k ↦ 0` when it is absent, then the value is incremented. -/
def increment [DecidableEq κ] [LT κ] [DecidableRel (fun a b : κ => a < b)]
    (m : CppMap κ Int) (k : κ) : CppMap κ Int :=
  if contains m k then modify (fun n => n + 1) m k else insertSorted k 1 m

end CppMap

/-! ## `Word` (`Word.h`, `Word.cpp`) -/

/-- The class `Word`: the letters, the duplicate count and the ranking. -/
structure Word where
  word : List Char
  duplicates : Int
  ranking : Int
deriving DecidableEq, Repr

namespace Word

/-- The default constructor `Word::Word() : Word("", 0, 0)`. -/
def empty : Word := ⟨[], 0, 0⟩

/-- The comparison `Word::operator<`: `other.ranking < ranking`. -/
def lt (self other : Word) : Prop := other.ranking < self.ranking

instance (a b : Word) : Decidable (Word.lt a b) := by
  unfold Word.lt; infer_instance

end Word

/-! ## Scoring (`getDuplicates`, `getRanking`, `getLetterCount`, `getWords`) -/

/-- One iteration of the loop of `getDuplicates`, on the pair
`(letterCount, count)`. -/
def getDuplicatesStep (st : CppMap Char Int × Int) (letter : Char) : CppMap Char Int × Int :=
  let letterCount := st.1.increment letter
  match letterCount.find? letter with
  | some n => if n > 1 then (letterCount, st.2 + 1) else (letterCount, st.2)
  | none => (letterCount, st.2)

/-- Source: `int getDuplicates(const std::string& word)`. -/
def getDuplicates (word : List Char) : Int :=
  (word.foldl getDuplicatesStep ([], 0)).2

/-- Source: `int getRanking(const std::map<char, int>&, const std::string&)`. -/
def getRanking (letterCount : CppMap Char Int) (word : List Char) : Int :=
  word.foldl
    (fun ranking letter =>
      match letterCount.find? letter with
      | some n => ranking + n
      | none => ranking)
    0

/-- Source: `std::map<char, int> getLetterCount(const std::vector<std::string>&)`. -/
def getLetterCount (wordsList : List (List Char)) : CppMap Char Int :=
  wordsList.foldl (fun letterCount word => word.foldl CppMap.increment letterCount) []

/-- Source: `std::vector<Word> getWords(const std::vector<std::string>&)`. -/
def getWords (wordsList : List (List Char)) : List Word :=
  let letterCount := getLetterCount wordsList
  wordsList.foldl
    (fun words word =>
      let duplicates := getDuplicates word
      let ranking := getRanking letterCount word
      words ++ [Word.mk word duplicates ranking])
    []

/-! ## The candidate filter -/

/-- Source: `std::set<char> getGuessedLetters(const std::vector<Word>&)`. -/
def getGuessedLetters (guessedWords : List Word) : CharSet :=
  guessedWords.foldl (fun guessedLetters word => word.word.foldl CharSet.insert guessedLetters) []

/-- Source: `std::set<char> getExcludedLetters(guessedLetters, knownLetters)`. -/
def getExcludedLetters (guessedLetters knownLetters : CharSet) : CharSet :=
  guessedLetters.foldl
    (fun excludedLetters letter =>
      if !knownLetters.contains letter then excludedLetters.insert letter else excludedLetters)
    []

/-- The largest `int`. -/
def INT_MAX : Int := 2 ^ 31 - 1

/-- The conversion of an `int` to `size_t` in a mixed comparison. -/
def toSizeT (i : Int) : Nat := (i % 2 ^ 64).toNat

/-- The test of the first loop of `isWordPossible` on one binding:
`word.length() <= index || word[index] != letter`. -/
def knownPositionFails (word : List Char) (p : Int × Char) : Bool :=
  decide (word.length ≤ toSizeT p.1) || decide (word[toSizeT p.1]? ≠ some p.2)

/-- The test of the second loop of `isWordPossible` at index `i`:
`excludedPositions.contains(i) && excludedPositions.at(i).contains(word.at(i))`. -/
def excludedPositionHits (word : List Char) (excludedPositions : CppMap Int CharSet)
    (i : Nat) : Bool :=
  excludedPositions.contains (i : Int) &&
    (match excludedPositions.find? (i : Int), word[i]? with
     | some s, some c => s.contains c
     | _, _ => false)

/-- Source: `bool isWordPossible(word, guessedLetters, knownLetters,
knownPositions, excludedPositions)`.  Each loop that returns `false` at its
first hit is an `any` over the container in iteration order. -/
def isWordPossible (word : Word) (guessedLetters knownLetters : CharSet)
    (knownPositions : CppMap Int Char) (excludedPositions : CppMap Int CharSet) : Bool :=
  let excludedLetters := getExcludedLetters guessedLetters knownLetters
  if knownPositions.any (knownPositionFails word.word) then false
  else if (List.range word.word.length).any (excludedPositionHits word.word excludedPositions)
  then false
  else if knownLetters.any (fun letter => !decide (letter ∈ word.word)) then false
  else if !excludedLetters.all (fun letter => !decide (letter ∈ word.word)) then false
  else true

/-- The four grounds of elimination, in the words of the specification of the
candidate filter (not taken from the code): (1) some known position `i -> c` has
`i >= length(w)` or `w[i] != c`; (2) some index `i < length(w)` has `w[i]` in
the excluded set bound to `i`; (3) some known letter does not occur in `w`;
(4) `w` contains a letter that is guessed but not known. -/
def Eliminated (w : List Char) (guessedLetters knownLetters : CharSet)
    (knownPositions : CppMap Int Char) (excludedPositions : CppMap Int CharSet) : Prop :=
  (∃ p ∈ knownPositions, w.length ≤ p.1.toNat ∨ w[p.1.toNat]? ≠ some p.2) ∨
  (∃ i s c, i < w.length ∧ CppMap.find? excludedPositions (i : Int) = some s ∧
      w[i]? = some c ∧ c ∈ s) ∨
  (∃ c ∈ knownLetters, c ∉ w) ∨
  (∃ c ∈ w, c ∈ guessedLetters ∧ c ∉ knownLetters)

/-- Source: `std::vector<Word> getPossibleWords(possibleWords, ...)`. -/
def getPossibleWords (possibleWords : List Word) (guessedLetters knownLetters : CharSet)
    (knownPositions : CppMap Int Char) (excludedPositions : CppMap Int CharSet) : List Word :=
  possibleWords.foldl
    (fun newPossibleWords word =>
      if isWordPossible word guessedLetters knownLetters knownPositions excludedPositions
      then newPossibleWords ++ [word] else newPossibleWords)
    []

/-! ## The guess selector -/

/-- Source: `std::vector<Word> getWordsWithoutDuplicates(words, allowedDuplicates)`. -/
def getWordsWithoutDuplicates (words : List Word) (allowedDuplicates : Int) : List Word :=
  words.foldl
    (fun result word => if word.duplicates ≤ allowedDuplicates then result ++ [word] else result)
    []

/-- The loop `do { words = getWordsWithoutDuplicates(possibleWords,
allowedDuplicates); allowedDuplicates++; } while (words.empty());` run for at
most `fuel` iterations; the value is the final `words`. -/
def escalate (possibleWords : List Word) : Nat → Int → Option (List Word)
  | 0, _ => none
  | fuel + 1, allowedDuplicates =>
    let words := getWordsWithoutDuplicates possibleWords allowedDuplicates
    if words.isEmpty then escalate possibleWords fuel (allowedDuplicates + 1) else some words

/-- The order that `std::sort(words.begin(), words.end())` establishes:
`b < a` is false whenever `a` stands before `b`. -/
def sortedBefore (a b : Word) : Prop := ¬ Word.lt b a

instance (a b : Word) : Decidable (sortedBefore a b) := by
  unfold sortedBefore; infer_instance

/-- Any two words are ordered one way or the other. -/
instance sortedBefore_isTotal : IsTotal Word sortedBefore :=
  ⟨fun a b => by
    unfold sortedBefore Word.lt
    by_cases h : b.ranking ≤ a.ranking
    · exact Or.inl (not_lt.2 h)
    · exact Or.inr (not_lt.2 (le_of_lt (not_le.1 h)))⟩

/-- The order is transitive. -/
instance sortedBefore_isTrans : IsTrans Word sortedBefore :=
  ⟨fun a b c hab hbc => by
    unfold sortedBefore Word.lt at *
    exact not_lt.2 (le_trans (not_lt.1 hbc) (not_lt.1 hab))⟩

/-- The model of `std::sort` with `Word::operator<`.  `std::sort` leaves the
order of equivalent elements open; this model is one admissible outcome, and
the theorems below use only that the result is an ordered permutation. -/
def sortWords (words : List Word) : List Word := words.insertionSort sortedBefore

/-- Source: `Word getMostRelevantWord(const std::vector<Word>& possibleWords)`. -/
def getMostRelevantWord (fuel : Nat) (possibleWords : List Word) : Option Word :=
  if possibleWords.isEmpty then some (Word.mk [] 0 0)
  else
    match escalate possibleWords fuel 0 with
    | none => none
    | some words => (sortWords words)[0]?

/-! ## Constraint updates -/

/-- Source: `void updateKnownLetters(knownLetters, currentGuess, targetWord)`;
the value is the set after the call. -/
def updateKnownLetters (knownLetters : CharSet) (currentGuess : Word)
    (targetWord : List Char) : CharSet :=
  targetWord.foldl
    (fun known letter =>
      if decide (letter ∈ currentGuess.word) && !known.contains letter
      then known.insert letter else known)
    knownLetters

/-- The body of the loop of `updateKnownPositions` at index `i`:
`if (targetWord[i] == guess[i] && !knownPositions.contains(i))
knownPositions.insert({i, targetWord[i]});`. -/
def updateKnownPositionsStep (currentGuess : Word) (targetWord : List Char)
    (known : CppMap Int Char) (i : Nat) : CppMap Int Char :=
  match targetWord[i]?, currentGuess.word[i]? with
  | some a, some b =>
    if a = b && !known.contains (i : Int) then known.insert (i : Int) a else known
  | _, _ => known

/-- Source: `void updateKnownPositions(knownPositions, currentGuess, targetWord)`;
the value is the map after the call. -/
def updateKnownPositions (knownPositions : CppMap Int Char) (currentGuess : Word)
    (targetWord : List Char) : CppMap Int Char :=
  if currentGuess.word.length ≠ targetWord.length then knownPositions
  else
    (List.range targetWord.length).foldl (updateKnownPositionsStep currentGuess targetWord)
      knownPositions

/-- The body of the loop of `updateExcludedPositions` at index `i`: when
`targetWord[i] != guess[i]`, the guessed letter joins the set bound to `i`, and
a set holding just that letter is bound to `i` when there was none. -/
def updateExcludedPositionsStep (currentGuess : Word) (targetWord : List Char)
    (excluded : CppMap Int CharSet) (i : Nat) : CppMap Int CharSet :=
  match targetWord[i]?, currentGuess.word[i]? with
  | some a, some b =>
    if a ≠ b then
      if excluded.contains (i : Int) then
        excluded.modify (fun s => s.insert b) (i : Int)
      else excluded.insert (i : Int) [b]
    else excluded
  | _, _ => excluded

/-- Source: `void updateExcludedPositions(excludedPositions, currentGuess,
targetWord)`; the value is the map after the call. -/
def updateExcludedPositions (excludedPositions : CppMap Int CharSet) (currentGuess : Word)
    (targetWord : List Char) : CppMap Int CharSet :=
  if currentGuess.word.length ≠ targetWord.length then excludedPositions
  else
    (List.range targetWord.length).foldl (updateExcludedPositionsStep currentGuess targetWord)
      excludedPositions

/-! ## The game loop (`main`) -/

/-- The variables of `main` that the loop reads and writes. -/
structure GameState where
  possibleWords : List Word
  guessedWords : List Word
  knownLetters : CharSet
  knownPositions : CppMap Int Char
  excludedPositions : CppMap Int CharSet
  currentGuess : Word
  guesses : Nat

/-- The state before the loop: the full pool, no guess made, nothing known. -/
def initialState (possibleWords : List Word) : GameState :=
  { possibleWords := possibleWords
    guessedWords := []
    knownLetters := []
    knownPositions := []
    excludedPositions := []
    currentGuess := Word.empty
    guesses := 0 }

/-- How a pass through the loop body ends: the loop goes on (`running`), the
guess was the target (`solved`), or the `break` of the empty guess was taken
(`exhausted`). -/
inductive Status where
  | running
  | solved
  | exhausted
deriving DecidableEq, Repr

/-- The second half of the loop body, from `guessedWords.push_back(currentGuess)`
to the assignment of `possibleWords`. -/
def applyGuess (targetWord : List Char) (s : GameState) (currentGuess : Word) : GameState :=
  let guessedWords := s.guessedWords ++ [currentGuess]
  let guessedLetters := getGuessedLetters guessedWords
  let knownLetters := updateKnownLetters s.knownLetters currentGuess targetWord
  let knownPositions := updateKnownPositions s.knownPositions currentGuess targetWord
  let excludedPositions := updateExcludedPositions s.excludedPositions currentGuess targetWord
  { possibleWords :=
      getPossibleWords s.possibleWords guessedLetters knownLetters knownPositions
        excludedPositions
    guessedWords := guessedWords
    knownLetters := knownLetters
    knownPositions := knownPositions
    excludedPositions := excludedPositions
    currentGuess := currentGuess
    guesses := s.guesses }

/-- One pass through the body of the `do ... while` of `main`, with the test of
the `while`.  `fuel` is the fuel of the selector; `none` means that the selector
did not finish. -/
def playRound (fuel : Nat) (targetWord : List Char) (s : GameState) :
    Option (GameState × Status) :=
  match getMostRelevantWord fuel s.possibleWords with
  | none => none
  | some currentGuess =>
    if currentGuess.word.isEmpty then
      some ({ s with currentGuess := currentGuess, guesses := s.guesses + 1 }, Status.exhausted)
    else
      let s' := applyGuess targetWord { s with guesses := s.guesses + 1 } currentGuess
      some (s', if targetWord ≠ currentGuess.word then Status.running else Status.solved)

/-- The loop of `main`, run for at most `rounds` passes; `none` means that the
passes (or the fuel of the selector) did not suffice. -/
def gameLoop (fuel : Nat) (targetWord : List Char) : Nat → GameState →
    Option (GameState × Status)
  | 0, _ => none
  | rounds + 1, s =>
    match playRound fuel targetWord s with
    | none => none
    | some (s', Status.running) => gameLoop fuel targetWord rounds s'
    | some (s', st) => some (s', st)

/-- The states that the loop of `main` passes through, each with the way the
last pass ended, starting from the pool `pool` and the empty constraint state;
a further pass is made only after a pass that ended `running`. -/
inductive Reachable (fuel : Nat) (targetWord : List Char) (pool : List Word) :
    GameState → Status → Prop where
  | start : Reachable fuel targetWord pool (initialState pool) Status.running
  | round (s s' : GameState) (st : Status) :
      Reachable fuel targetWord pool s Status.running →
      playRound fuel targetWord s = some (s', st) →
      Reachable fuel targetWord pool s' st

/-- The constraint state built from the empty state by the updates for each
guess of a sequence, in order. -/
def stateAfter (targetWord : List Char) (pool : List Word) (guessSequence : List Word) :
    GameState :=
  guessSequence.foldl (applyGuess targetWord) (initialState pool)

/-- The constraint state holds only facts that are true of the target: every
known letter occurs in the target, every target letter of a played guess is
known, every known-position binding is the target letter at an index of the
target, and no excluded set holds the target letter of its index. -/
def ConstraintsSound (targetWord : List Char) (s : GameState) : Prop :=
  (∀ c ∈ s.knownLetters, c ∈ targetWord) ∧
  (∀ g ∈ s.guessedWords, ∀ c ∈ g.word, c ∈ targetWord → c ∈ s.knownLetters) ∧
  (∀ p ∈ s.knownPositions, 0 ≤ p.1 ∧ p.1 < (targetWord.length : Int) ∧
    targetWord[p.1.toNat]? = some p.2) ∧
  (∀ (i : Nat) (e : CharSet), CppMap.find? s.excludedPositions (i : Int) = some e →
    ∀ c ∈ e, targetWord[i]? ≠ some c)

/-- The invariant of the loop of `main` for the target `targetWord`, held in
the pool as the word `T`: the constraint state is sound, `T` is still in the
pool, and every pool word has the length of the target. -/
def LoopInvariant (targetWord : List Char) (T : Word) (s : GameState) : Prop :=
  ConstraintsSound targetWord s ∧ T ∈ s.possibleWords ∧
    ∀ v ∈ s.possibleWords, v.word.length = targetWord.length

/-! ## Facts about the containers -/

theorem CharSet.mem_insertSorted (c x : Char) (s : CharSet) :
    x ∈ CharSet.insertSorted c s ↔ x = c ∨ x ∈ s := by
  induction s with
  | nil => simp [CharSet.insertSorted]
  | cons d rest ih =>
    unfold CharSet.insertSorted
    split
    · simp
    · simp only [List.mem_cons, ih]
      tauto

theorem CharSet.mem_insert (c x : Char) (s : CharSet) :
    x ∈ CharSet.insert s c ↔ x = c ∨ x ∈ s := by
  unfold CharSet.insert CharSet.contains
  by_cases h : c ∈ s
  · simp only [h, decide_True, if_true]
    constructor
    · exact fun hx => Or.inr hx
    · rintro (rfl | hx)
      · exact h
      · exact hx
  · simp only [h, decide_False, Bool.false_eq_true, if_false]
    exact CharSet.mem_insertSorted c x s

theorem CharSet.insert_of_mem (c : Char) (s : CharSet) (h : c ∈ s) :
    CharSet.insert s c = s := by
  simp [CharSet.insert, CharSet.contains, h]

/-! ## Facts about the candidate filter -/

theorem mem_getExcludedLetters_aux (K : CharSet) (c : Char) (G acc : CharSet) :
    c ∈ G.foldl
        (fun excludedLetters letter =>
          if !K.contains letter then excludedLetters.insert letter else excludedLetters)
        acc ↔ c ∈ acc ∨ (c ∈ G ∧ c ∉ K) := by
  induction G generalizing acc with
  | nil => simp
  | cons g rest ih =>
    rw [List.foldl_cons, ih]
    by_cases hg : g ∈ K
    · simp only [CharSet.contains, hg, decide_True, Bool.not_true, Bool.false_eq_true, if_false,
        List.mem_cons]
      constructor
      · rintro (h | ⟨h1, h2⟩)
        · exact Or.inl h
        · exact Or.inr ⟨Or.inr h1, h2⟩
      · rintro (h | ⟨h1 | h1, h2⟩)
        · exact Or.inl h
        · exact absurd (h1 ▸ hg) h2
        · exact Or.inr ⟨h1, h2⟩
    · simp only [CharSet.contains, hg, decide_False, Bool.not_false, if_true, List.mem_cons,
        CharSet.mem_insert]
      constructor
      · rintro ((h | h) | ⟨h1, h2⟩)
        · exact Or.inr ⟨Or.inl h, h ▸ hg⟩
        · exact Or.inl h
        · exact Or.inr ⟨Or.inr h1, h2⟩
      · rintro (h | ⟨h1 | h1, h2⟩)
        · exact Or.inl (Or.inr h)
        · exact Or.inl (Or.inl h1)
        · exact Or.inr ⟨h1, h2⟩

/-- The excluded letters are the guessed letters that are not known. -/
theorem mem_getExcludedLetters (G K : CharSet) (c : Char) :
    c ∈ getExcludedLetters G K ↔ c ∈ G ∧ c ∉ K := by
  unfold getExcludedLetters
  rw [mem_getExcludedLetters_aux]
  simp

theorem toSizeT_of_nonneg (i : Int) (h0 : 0 ≤ i) (h1 : i ≤ INT_MAX) : toSizeT i = i.toNat := by
  unfold toSizeT
  unfold INT_MAX at h1
  rw [Int.emod_eq_of_lt h0 (by omega)]

theorem excludedPositionHits_iff (word : List Char) (ep : CppMap Int CharSet) (i : Nat) :
    excludedPositionHits word ep i = true ↔
      ∃ s c, CppMap.find? ep (i : Int) = some s ∧ word[i]? = some c ∧ c ∈ s := by
  unfold excludedPositionHits CppMap.contains
  cases h1 : CppMap.find? ep (i : Int) with
  | none => simp
  | some s =>
    cases h2 : word[i]? with
    | none => simp
    | some c => simp [CharSet.contains]

theorem any_knownPositionFails_iff (word : List Char) (kp : CppMap Int Char)
    (hkp : ∀ p ∈ kp, 0 ≤ p.1 ∧ p.1 ≤ INT_MAX) :
    kp.any (knownPositionFails word) = true ↔
      ∃ p ∈ kp, word.length ≤ p.1.toNat ∨ word[p.1.toNat]? ≠ some p.2 := by
  rw [List.any_eq_true]
  constructor
  · rintro ⟨p, hp, hf⟩
    refine ⟨p, hp, ?_⟩
    have hs := toSizeT_of_nonneg p.1 (hkp p hp).1 (hkp p hp).2
    simpa [knownPositionFails, hs] using hf
  · rintro ⟨p, hp, hf⟩
    refine ⟨p, hp, ?_⟩
    have hs := toSizeT_of_nonneg p.1 (hkp p hp).1 (hkp p hp).2
    simpa [knownPositionFails, hs] using hf

theorem any_excludedPositionHits_iff (word : List Char) (ep : CppMap Int CharSet) :
    (List.range word.length).any (excludedPositionHits word ep) = true ↔
      ∃ i s c, i < word.length ∧ CppMap.find? ep (i : Int) = some s ∧
        word[i]? = some c ∧ c ∈ s := by
  rw [List.any_eq_true]
  constructor
  · rintro ⟨i, hi, hf⟩
    obtain ⟨s, c, h1, h2, h3⟩ := (excludedPositionHits_iff word ep i).1 hf
    exact ⟨i, s, c, List.mem_range.1 hi, h1, h2, h3⟩
  · rintro ⟨i, s, c, hi, h1, h2, h3⟩
    exact ⟨i, List.mem_range.2 hi, (excludedPositionHits_iff word ep i).2 ⟨s, c, h1, h2, h3⟩⟩

theorem any_knownLetterMissing_iff (word : List Char) (K : CharSet) :
    K.any (fun letter => !decide (letter ∈ word)) = true ↔ ∃ c ∈ K, c ∉ word := by
  simp [List.any_eq_true]

theorem all_excludedLetterAbsent_iff (word : List Char) (G K : CharSet) :
    (getExcludedLetters G K).all (fun letter => !decide (letter ∈ word)) = true ↔
      ¬ ∃ c ∈ word, c ∈ G ∧ c ∉ K := by
  rw [List.all_eq_true]
  constructor
  · rintro h ⟨c, hc, hG, hK⟩
    have := h c ((mem_getExcludedLetters G K c).2 ⟨hG, hK⟩)
    simp [hc] at this
  · intro h c hc
    have hm := (mem_getExcludedLetters G K c).1 hc
    have : c ∉ word := fun hw => h ⟨c, hw, hm.1, hm.2⟩
    simp [this]

/-- C1: for a known-positions map whose indices are non-negative `int`s,
`isWordPossible` returns false exactly when one of the four grounds of
`Eliminated` holds: (1) some known position `i -> c` has `i >= length(w)` or
`w[i] != c`, (2) some index `i < length(w)` has `w[i]` in the excluded set bound
to `i`, (3) some known letter does not occur in `w`, (4) `w` contains a letter
that is guessed but not known; in every other case it returns true. -/
theorem isWordPossible_eq_false_iff (word : Word) (guessedLetters knownLetters : CharSet)
    (knownPositions : CppMap Int Char) (excludedPositions : CppMap Int CharSet)
    (hkp : ∀ p ∈ knownPositions, 0 ≤ p.1 ∧ p.1 ≤ INT_MAX) :
    (isWordPossible word guessedLetters knownLetters knownPositions excludedPositions = false ↔
      Eliminated word.word guessedLetters knownLetters knownPositions excludedPositions) ∧
    (isWordPossible word guessedLetters knownLetters knownPositions excludedPositions = true ↔
      ¬ Eliminated word.word guessedLetters knownLetters knownPositions excludedPositions) := by
  have key : isWordPossible word guessedLetters knownLetters knownPositions excludedPositions
      = false ↔
      Eliminated word.word guessedLetters knownLetters knownPositions excludedPositions := by
    unfold Eliminated
    rw [← any_knownPositionFails_iff word.word knownPositions hkp,
      ← any_excludedPositionHits_iff word.word excludedPositions,
      ← any_knownLetterMissing_iff word.word knownLetters]
    have h4 := all_excludedLetterAbsent_iff word.word guessedLetters knownLetters
    unfold isWordPossible
    by_cases c1 : knownPositions.any (knownPositionFails word.word) = true
    · simp [c1]
    by_cases c2 : (List.range word.word.length).any
        (excludedPositionHits word.word excludedPositions) = true
    · simp [c1, c2]
    by_cases c3 : knownLetters.any (fun letter => !decide (letter ∈ word.word)) = true
    · simp only [c1, c2, c3]
      simp
    by_cases c4 : (getExcludedLetters guessedLetters knownLetters).all
        (fun letter => !decide (letter ∈ word.word)) = true
    · have := h4.1 c4
      simp only [c1, c2, c3, c4]
      simpa using this
    · have : ∃ c ∈ word.word, c ∈ guessedLetters ∧ c ∉ knownLetters := by
        by_contra hne
        exact c4 (h4.2 hne)
      simp only [c1, c2, c3, c4]
      simpa using this
  refine ⟨key, ?_⟩
  rw [← key]
  simp

/-- The instance of C1 at the word `later` with known position `0 -> l`, the
letter `l` excluded at index 1, known letters `a e l r t` and the extra guessed
letter `s`. -/
theorem isWordPossible_eq_false_iff_witness :
    (∀ p ∈ ([(0, 'l')] : CppMap Int Char), 0 ≤ p.1 ∧ p.1 ≤ INT_MAX) ∧
    ((isWordPossible (Word.mk "later".toList 0 23) ['a', 'e', 'l', 'r', 's', 't']
        ['a', 'e', 'l', 'r', 't'] [(0, 'l')] [(1, ['l'])] = false ↔
      Eliminated "later".toList ['a', 'e', 'l', 'r', 's', 't'] ['a', 'e', 'l', 'r', 't']
        [(0, 'l')] [(1, ['l'])]) ∧
    (isWordPossible (Word.mk "later".toList 0 23) ['a', 'e', 'l', 'r', 's', 't']
        ['a', 'e', 'l', 'r', 't'] [(0, 'l')] [(1, ['l'])] = true ↔
      ¬ Eliminated "later".toList ['a', 'e', 'l', 'r', 's', 't'] ['a', 'e', 'l', 'r', 't']
        [(0, 'l')] [(1, ['l'])])) :=
  ⟨by decide,
   isWordPossible_eq_false_iff (Word.mk "later".toList 0 23) ['a', 'e', 'l', 'r', 's', 't']
     ['a', 'e', 'l', 'r', 't'] [(0, 'l')] [(1, ['l'])] (by decide)⟩

/-! ## Facts about loops that append -/

theorem foldl_append_if {α : Type} (p : α → Bool) (l init : List α) :
    l.foldl (fun acc x => if p x then acc ++ [x] else acc) init = init ++ l.filter p := by
  induction l generalizing init with
  | nil => simp
  | cons x rest ih =>
    rw [List.foldl_cons, ih]
    by_cases hx : p x = true
    · simp [hx]
    · simp [hx]

theorem getPossibleWords_eq_filter (pool : List Word) (G K : CharSet)
    (kp : CppMap Int Char) (ep : CppMap Int CharSet) :
    getPossibleWords pool G K kp ep = pool.filter (fun w => isWordPossible w G K kp ep) := by
  unfold getPossibleWords
  rw [foldl_append_if (fun w => isWordPossible w G K kp ep)]
  simp

/-- C5: `getPossibleWords` returns exactly the words of the pool for which
`isWordPossible` is true, in their original relative order (it is a sublist of
the pool), so the result is not longer than the pool. -/
theorem getPossibleWords_spec (possibleWords : List Word) (guessedLetters knownLetters : CharSet)
    (knownPositions : CppMap Int Char) (excludedPositions : CppMap Int CharSet) :
    getPossibleWords possibleWords guessedLetters knownLetters knownPositions excludedPositions
        = possibleWords.filter
            (fun w => isWordPossible w guessedLetters knownLetters knownPositions
              excludedPositions) ∧
    List.Sublist
      (getPossibleWords possibleWords guessedLetters knownLetters knownPositions
        excludedPositions) possibleWords ∧
    (getPossibleWords possibleWords guessedLetters knownLetters knownPositions
        excludedPositions).length ≤ possibleWords.length := by
  rw [getPossibleWords_eq_filter]
  exact ⟨rfl, List.filter_sublist _, List.length_filter_le _ _⟩

/-! ## Facts about the guess selector -/

theorem getWordsWithoutDuplicates_eq_filter (words : List Word) (allowed : Int) :
    getWordsWithoutDuplicates words allowed
      = words.filter (fun w => decide (w.duplicates ≤ allowed)) := by
  unfold getWordsWithoutDuplicates
  have h := foldl_append_if (fun w : Word => decide (w.duplicates ≤ allowed)) words []
  simpa using h

theorem mem_getWordsWithoutDuplicates (words : List Word) (allowed : Int) (w : Word) :
    w ∈ getWordsWithoutDuplicates words allowed ↔ w ∈ words ∧ w.duplicates ≤ allowed := by
  rw [getWordsWithoutDuplicates_eq_filter]
  simp

/-- When the loop yields a list, it is a non-empty filtered pool. -/
theorem escalate_some (pool : List Word) (fuel : Nat) (a : Int) (ws : List Word)
    (h : escalate pool fuel a = some ws) :
    ws ≠ [] ∧ ∃ b : Int, ws = getWordsWithoutDuplicates pool b := by
  induction fuel generalizing a with
  | zero => simp [escalate] at h
  | succ n ih =>
    unfold escalate at h
    by_cases he : (getWordsWithoutDuplicates pool a).isEmpty = true
    · simp only [he, if_true] at h
      exact ih (a + 1) h
    · simp only [he] at h
      injection h with h
      subst h
      refine ⟨?_, a, rfl⟩
      intro hnil
      exact he (by simp [hnil])

/-- The loop stops at the first threshold `a + k` whose filtered pool is
non-empty, provided the fuel exceeds `k`. -/
theorem escalate_eq (pool : List Word) (k : Nat) :
    ∀ (fuel : Nat) (a : Int), k < fuel →
      (∀ j : Nat, j < k → getWordsWithoutDuplicates pool (a + j) = []) →
      getWordsWithoutDuplicates pool (a + k) ≠ [] →
      escalate pool fuel a = some (getWordsWithoutDuplicates pool (a + k)) := by
  induction k with
  | zero =>
    intro fuel a hf _ hne
    obtain ⟨n, rfl⟩ : ∃ n, fuel = n + 1 := ⟨fuel - 1, by omega⟩
    unfold escalate
    have ha : a + ((0 : Nat) : Int) = a := by simp
    rw [ha] at hne
    have he : (getWordsWithoutDuplicates pool a).isEmpty = false := by
      cases hw : getWordsWithoutDuplicates pool a with
      | nil => exact absurd hw hne
      | cons x xs => rfl
    simp [he]
  | succ k ih =>
    intro fuel a hf hlow hne
    obtain ⟨n, rfl⟩ : ∃ n, fuel = n + 1 := ⟨fuel - 1, by omega⟩
    unfold escalate
    have h0 : getWordsWithoutDuplicates pool a = [] := by
      have := hlow 0 (Nat.succ_pos k)
      simpa using this
    have hshift : ∀ j : Nat, a + 1 + (j : Int) = a + ((j + 1 : Nat) : Int) := by
      intro j
      push_cast
      ring
    have hrec := ih n (a + 1) (by omega)
      (fun j hj => by rw [hshift]; exact hlow (j + 1) (by omega))
      (by rw [hshift]; exact hne)
    rw [hshift] at hrec
    simp [h0, hrec]

/-- After the sort, the first element is a word of the list whose ranking is
not below the ranking of any word of the list. -/
theorem sortWords_head (words : List Word) (hne : words ≠ []) :
    ∃ w, (sortWords words)[0]? = some w ∧ w ∈ words ∧ ∀ v ∈ words, v.ranking ≤ w.ranking := by
  have hperm : List.Perm (sortWords words) words := List.perm_insertionSort sortedBefore words
  have hsorted : List.Sorted sortedBefore (sortWords words) :=
    List.sorted_insertionSort sortedBefore words
  cases hs : sortWords words with
  | nil =>
    rw [hs] at hperm
    exact absurd (List.Perm.eq_nil hperm.symm) hne
  | cons w rest =>
    rw [hs] at hperm hsorted
    refine ⟨w, by simp, hperm.subset (List.mem_cons_self w rest), ?_⟩
    intro v hv
    have hv2 : v ∈ w :: rest := hperm.symm.subset hv
    rcases List.mem_cons.1 hv2 with rfl | hrest
    · exact le_refl _
    · have := List.rel_of_sorted_cons hsorted v hrest
      unfold sortedBefore Word.lt at this
      exact not_lt.1 this

/-- The selector at the least threshold `k`: with fuel above `k` it returns a
best-ranked word among the pool words with at most `k` duplicates. -/
theorem getMostRelevantWord_at (pool : List Word) (k : Nat)
    (hk : ∃ v ∈ pool, v.duplicates ≤ (k : Int))
    (hmin : ∀ j : Nat, j < k → ∀ v ∈ pool, ¬ v.duplicates ≤ (j : Int)) :
    ∃ w, w ∈ pool ∧ w.duplicates ≤ (k : Int) ∧
      (∀ v ∈ pool, v.duplicates ≤ (k : Int) → v.ranking ≤ w.ranking) ∧
      ∀ fuel, k < fuel → getMostRelevantWord fuel pool = some w := by
  obtain ⟨v0, hv0, hv0k⟩ := hk
  have hne : getWordsWithoutDuplicates pool (0 + (k : Int)) ≠ [] := by
    intro h
    have : v0 ∈ getWordsWithoutDuplicates pool (0 + (k : Int)) :=
      (mem_getWordsWithoutDuplicates pool _ v0).2 ⟨hv0, by simpa using hv0k⟩
    rw [h] at this
    exact List.not_mem_nil _ this
  have hlow : ∀ j : Nat, j < k → getWordsWithoutDuplicates pool (0 + (j : Int)) = [] := by
    intro j hj
    apply List.eq_nil_iff_forall_not_mem.2
    intro v hv
    have := (mem_getWordsWithoutDuplicates pool _ v).1 hv
    exact hmin j hj v this.1 (by simpa using this.2)
  obtain ⟨w, hw0, hwmem, hwmax⟩ := sortWords_head _ hne
  have hw := (mem_getWordsWithoutDuplicates pool _ w).1 hwmem
  refine ⟨w, hw.1, by simpa using hw.2, ?_, ?_⟩
  · intro v hv hvk
    exact hwmax v ((mem_getWordsWithoutDuplicates pool _ v).2 ⟨hv, by simpa using hvk⟩)
  · intro fuel hf
    have hpool : pool.isEmpty = false := by
      cases pool with
      | nil => exact absurd hv0 (List.not_mem_nil _)
      | cons x xs => rfl
    unfold getMostRelevantWord
    rw [escalate_eq pool k fuel 0 hf hlow hne]
    simp only [hpool, Bool.false_eq_true, if_false, hw0]

/-- A non-empty pool has a least threshold at which some word qualifies. -/
theorem exists_least_threshold (pool : List Word) (hne : pool ≠ []) :
    ∃ k : Nat, (∃ v ∈ pool, v.duplicates ≤ (k : Int)) ∧
      ∀ j : Nat, j < k → ∀ v ∈ pool, ¬ v.duplicates ≤ (j : Int) := by
  have hex : ∃ k : Nat, ∃ v ∈ pool, v.duplicates ≤ (k : Int) := by
    cases pool with
    | nil => exact absurd rfl hne
    | cons x xs =>
      exact ⟨x.duplicates.toNat, x, List.mem_cons_self x xs, Int.self_le_toNat x.duplicates⟩
  refine ⟨Nat.find hex, Nat.find_spec hex, ?_⟩
  intro j hj v hv hle
  exact Nat.find_min hex hj ⟨v, hv, hle⟩

/-- A word returned for a non-empty pool is a word of the pool. -/
theorem getMostRelevantWord_mem (pool : List Word) (hne : pool ≠ []) (fuel : Nat) (w : Word)
    (h : getMostRelevantWord fuel pool = some w) : w ∈ pool := by
  have hpool : pool.isEmpty = false := by
    cases pool with
    | nil => exact absurd rfl hne
    | cons x xs => rfl
  unfold getMostRelevantWord at h
  simp only [hpool, Bool.false_eq_true, if_false] at h
  cases he : escalate pool fuel 0 with
  | none => simp [he] at h
  | some ws =>
    simp only [he] at h
    obtain ⟨hws, b, hb⟩ := escalate_some pool fuel 0 ws he
    obtain ⟨w2, hw2, hmem, _⟩ := sortWords_head ws hws
    rw [hw2] at h
    injection h with h
    subst h
    rw [hb] at hmem
    exact ((mem_getWordsWithoutDuplicates pool b w2).1 hmem).1

/-- C2: for a non-empty pool whose duplicate counts are non-negative,
`getMostRelevantWord` returns (for every fuel above the returned count) a word
of the pool whose duplicate count is not greater than the duplicate count of
any pool word, that is, the minimum duplicate count of the pool. -/
theorem getMostRelevantWord_min_duplicates (possibleWords : List Word)
    (hne : possibleWords ≠ []) (hnn : ∀ v ∈ possibleWords, 0 ≤ v.duplicates) :
    ∃ w, w ∈ possibleWords ∧ (∀ v ∈ possibleWords, w.duplicates ≤ v.duplicates) ∧
      ∀ fuel, w.duplicates.toNat < fuel → getMostRelevantWord fuel possibleWords = some w := by
  obtain ⟨k, hk, hmin⟩ := exists_least_threshold possibleWords hne
  obtain ⟨w, hw, hwk, _, hret⟩ := getMostRelevantWord_at possibleWords k hk hmin
  have hlow : ∀ v ∈ possibleWords, (k : Int) ≤ v.duplicates := by
    intro v hv
    by_contra hlt
    have h0 := hnn v hv
    have hj : v.duplicates.toNat < k := by omega
    exact hmin v.duplicates.toNat hj v hv (Int.self_le_toNat v.duplicates)
  refine ⟨w, hw, fun v hv => le_trans hwk (hlow v hv), ?_⟩
  intro fuel hf
  have hwk2 := hlow w hw
  exact hret fuel (by omega)

/-- The instance of C2 at a pool of three words with duplicate counts 1, 0, 0. -/
theorem getMostRelevantWord_min_duplicates_witness :
    ([Word.mk "hello".toList 1 9, Word.mk "alert".toList 0 7, Word.mk "later".toList 0 8] ≠ []) ∧
    (∀ v ∈ [Word.mk "hello".toList 1 9, Word.mk "alert".toList 0 7, Word.mk "later".toList 0 8],
      0 ≤ v.duplicates) ∧
    ∃ w, w ∈ [Word.mk "hello".toList 1 9, Word.mk "alert".toList 0 7,
          Word.mk "later".toList 0 8] ∧
      (∀ v ∈ [Word.mk "hello".toList 1 9, Word.mk "alert".toList 0 7,
          Word.mk "later".toList 0 8], w.duplicates ≤ v.duplicates) ∧
      ∀ fuel, w.duplicates.toNat < fuel →
        getMostRelevantWord fuel [Word.mk "hello".toList 1 9, Word.mk "alert".toList 0 7,
          Word.mk "later".toList 0 8] = some w :=
  ⟨by simp, by decide,
   getMostRelevantWord_min_duplicates
     [Word.mk "hello".toList 1 9, Word.mk "alert".toList 0 7, Word.mk "later".toList 0 8]
     (by simp) (by decide)⟩

/-- C3: a non-empty pool has a smallest threshold `k >= 0` at which some pool
word has at most `k` duplicates, and the word that `getMostRelevantWord` returns
(for every fuel above `k`) is a pool word with at most `k` duplicates whose
ranking is greater than or equal to the ranking of every pool word with at most
`k` duplicates. -/
theorem getMostRelevantWord_highest_ranking (possibleWords : List Word)
    (hne : possibleWords ≠ []) :
    ∃ k : Nat, (∃ v ∈ possibleWords, v.duplicates ≤ (k : Int)) ∧
      (∀ j : Nat, j < k → ∀ v ∈ possibleWords, ¬ v.duplicates ≤ (j : Int)) ∧
      ∃ w, w ∈ possibleWords ∧ w.duplicates ≤ (k : Int) ∧
        (∀ v ∈ possibleWords, v.duplicates ≤ (k : Int) → v.ranking ≤ w.ranking) ∧
        ∀ fuel, k < fuel → getMostRelevantWord fuel possibleWords = some w := by
  obtain ⟨k, hk, hmin⟩ := exists_least_threshold possibleWords hne
  exact ⟨k, hk, hmin, getMostRelevantWord_at possibleWords k hk hmin⟩

/-- The instance of C3 at a pool whose words all have at least one duplicate. -/
theorem getMostRelevantWord_highest_ranking_witness :
    ([Word.mk "hello".toList 1 9, Word.mk "geese".toList 2 12, Word.mk "otter".toList 1 11]
        ≠ []) ∧
    ∃ k : Nat,
      (∃ v ∈ [Word.mk "hello".toList 1 9, Word.mk "geese".toList 2 12,
          Word.mk "otter".toList 1 11], v.duplicates ≤ (k : Int)) ∧
      (∀ j : Nat, j < k →
        ∀ v ∈ [Word.mk "hello".toList 1 9, Word.mk "geese".toList 2 12,
          Word.mk "otter".toList 1 11], ¬ v.duplicates ≤ (j : Int)) ∧
      ∃ w, w ∈ [Word.mk "hello".toList 1 9, Word.mk "geese".toList 2 12,
          Word.mk "otter".toList 1 11] ∧ w.duplicates ≤ (k : Int) ∧
        (∀ v ∈ [Word.mk "hello".toList 1 9, Word.mk "geese".toList 2 12,
          Word.mk "otter".toList 1 11], v.duplicates ≤ (k : Int) → v.ranking ≤ w.ranking) ∧
        ∀ fuel, k < fuel →
          getMostRelevantWord fuel [Word.mk "hello".toList 1 9, Word.mk "geese".toList 2 12,
            Word.mk "otter".toList 1 11] = some w :=
  ⟨by simp,
   getMostRelevantWord_highest_ranking
     [Word.mk "hello".toList 1 9, Word.mk "geese".toList 2 12, Word.mk "otter".toList 1 11]
     (by simp)⟩

/-- C4: on the empty pool `getMostRelevantWord` returns the sentinel (empty
word, duplicate count 0, ranking 0) before the loop and before any access to the
pool (so for every fuel, zero included); on a non-empty pool of non-empty words
it returns a word, and no word it returns has the empty word of the sentinel. -/
theorem getMostRelevantWord_sentinel :
    (∀ fuel, getMostRelevantWord fuel [] = some (Word.mk [] 0 0)) ∧
    (∀ possibleWords : List Word, possibleWords ≠ [] →
      (∀ v ∈ possibleWords, v.word ≠ []) →
      (∃ w, w.word ≠ [] ∧ ∃ n, ∀ fuel, n < fuel →
        getMostRelevantWord fuel possibleWords = some w) ∧
      (∀ fuel w, getMostRelevantWord fuel possibleWords = some w → w.word ≠ [])) := by
  refine ⟨fun fuel => rfl, ?_⟩
  intro pool hne hwords
  constructor
  · obtain ⟨k, hk, hmin⟩ := exists_least_threshold pool hne
    obtain ⟨w, hw, _, _, hret⟩ := getMostRelevantWord_at pool k hk hmin
    exact ⟨w, hwords w hw, k, hret⟩
  · intro fuel w h
    exact hwords w (getMostRelevantWord_mem pool hne fuel w h)

/-- The instance of the second part of C4 at a pool of two non-empty words. -/
theorem getMostRelevantWord_sentinel_witness :
    ([Word.mk "hello".toList 1 9, Word.mk "later".toList 0 8] ≠ []) ∧
    (∀ v ∈ [Word.mk "hello".toList 1 9, Word.mk "later".toList 0 8], v.word ≠ []) ∧
    (∃ w, w.word ≠ [] ∧ ∃ n, ∀ fuel, n < fuel →
      getMostRelevantWord fuel [Word.mk "hello".toList 1 9, Word.mk "later".toList 0 8]
        = some w) ∧
    (∀ fuel w,
      getMostRelevantWord fuel [Word.mk "hello".toList 1 9, Word.mk "later".toList 0 8] = some w →
      w.word ≠ []) :=
  ⟨by simp, by decide,
   getMostRelevantWord_sentinel.2 [Word.mk "hello".toList 1 9, Word.mk "later".toList 0 8]
     (by simp) (by decide)⟩

/-! ## Facts about `CppMap` -/

theorem CppMap.find?_insertSorted {κ ν : Type} [DecidableEq κ] [LT κ]
    [DecidableRel (fun a b : κ => a < b)] (m : CppMap κ ν) (k' k : κ) (v : ν)
    (habs : CppMap.find? m k' = none) :
    CppMap.find? (CppMap.insertSorted k' v m) k
      = if k' = k then some v else CppMap.find? m k := by
  induction m with
  | nil => simp [CppMap.insertSorted, CppMap.find?]
  | cons e rest ih =>
    obtain ⟨k0, v0⟩ := e
    have hk0 : k0 ≠ k' := by
      intro h
      simp [CppMap.find?, h] at habs
    have hrest : CppMap.find? rest k' = none := by
      simpa [CppMap.find?, hk0] using habs
    unfold CppMap.insertSorted
    by_cases hlt : k' < k0
    · simp only [hlt, if_true]
      by_cases hk : k' = k
      · simp [CppMap.find?, hk]
      · simp only [CppMap.find?, hk, if_false]
    · simp only [hlt, if_false]
      by_cases hk : k' = k
      · subst hk
        simp [CppMap.find?, hk0, ih hrest]
      · by_cases hk2 : k0 = k
        · simp [CppMap.find?, hk2, hk]
        · simp [CppMap.find?, hk2, hk, ih hrest]

theorem CppMap.find?_modify {κ ν : Type} [DecidableEq κ] (f : ν → ν) (m : CppMap κ ν)
    (k' k : κ) :
    CppMap.find? (CppMap.modify f m k') k
      = if k' = k then (CppMap.find? m k').map f else CppMap.find? m k := by
  induction m with
  | nil => simp [CppMap.modify, CppMap.find?]
  | cons e rest ih =>
    obtain ⟨k0, v0⟩ := e
    unfold CppMap.modify
    by_cases h0 : k0 = k'
    · subst h0
      by_cases hk : k0 = k
      · simp [CppMap.find?, hk]
      · simp [CppMap.find?, hk]
    · by_cases hk : k' = k
      · subst hk
        simp [CppMap.find?, h0, ih]
      · by_cases hk2 : k0 = k
        · subst hk2
          simp [CppMap.find?, h0, hk]
        · simp [CppMap.find?, h0, hk, hk2, ih]

theorem CppMap.find?_insert {κ ν : Type} [DecidableEq κ] [LT κ]
    [DecidableRel (fun a b : κ => a < b)] (m : CppMap κ ν) (k' k : κ) (v : ν) :
    CppMap.find? (CppMap.insert m k' v) k
      = if k' = k then some ((CppMap.find? m k').getD v) else CppMap.find? m k := by
  unfold CppMap.insert CppMap.contains
  cases h : CppMap.find? m k' with
  | none => simp [CppMap.find?_insertSorted m k' k v h]
  | some x =>
    by_cases hk : k' = k
    · subst hk
      simp [h]
    · simp [hk]

theorem CppMap.find?_increment {κ : Type} [DecidableEq κ] [LT κ]
    [DecidableRel (fun a b : κ => a < b)] (m : CppMap κ Int) (k' k : κ) :
    CppMap.find? (CppMap.increment m k') k
      = if k' = k then some ((CppMap.find? m k').getD 0 + 1) else CppMap.find? m k := by
  unfold CppMap.increment CppMap.contains
  cases h : CppMap.find? m k' with
  | none => simp [CppMap.find?_insertSorted m k' k 1 h]
  | some x =>
    by_cases hk : k' = k
    · subst hk
      simp [CppMap.find?_modify, h]
    · simp [CppMap.find?_modify, hk]

/-! ## Facts about the scoring -/

/-- One step of `getDuplicates` when the map holds the letter counts of the
letters read so far. -/
theorem getDuplicatesStep_spec (pre : List Char) (m : CppMap Char Int) (n : Int) (c : Char)
    (hm : ∀ d, (CppMap.find? m d).getD 0 = (pre.count d : Int)) :
    (∀ d, (CppMap.find? (getDuplicatesStep (m, n) c).1 d).getD 0
        = ((pre ++ [c]).count d : Int)) ∧
    (getDuplicatesStep (m, n) c).2 = n + (if c ∈ pre then 1 else 0) := by
  have hfind : CppMap.find? (CppMap.increment m c) c = some ((pre.count c : Int) + 1) := by
    rw [CppMap.find?_increment, hm c]
    simp
  have hfst : (getDuplicatesStep (m, n) c).1 = CppMap.increment m c := by
    unfold getDuplicatesStep
    simp only [hfind]
    split <;> rfl
  constructor
  · intro d
    rw [hfst, CppMap.find?_increment]
    by_cases hcd : c = d
    · subst hcd
      simp [hm c]
    · have hdc : ¬ d = c := fun h => hcd h.symm
      simp [hcd, hm d, List.count_append, List.count_cons, hdc]
  · unfold getDuplicatesStep
    simp only [hfind]
    by_cases hc : c ∈ pre
    · have hpos : 0 < pre.count c := List.count_pos_iff.2 hc
      have : ((pre.count c : Int) + 1 > 1) := by omega
      simp [this, hc]
    · have h0 : pre.count c = 0 := List.count_eq_zero_of_not_mem hc
      simp [h0, hc]

theorem card_toFinset_append_singleton (pre : List Char) (c : Char) :
    ((pre ++ [c]).toFinset.card : Int)
      = (pre.toFinset.card : Int) + (if c ∈ pre then 0 else 1) := by
  have hset : (pre ++ [c]).toFinset = Insert.insert c pre.toFinset := by
    ext x
    simp [or_comm]
  rw [hset]
  by_cases hc : c ∈ pre
  · have : c ∈ pre.toFinset := List.mem_toFinset.2 hc
    simp [Finset.card_insert_of_mem this, hc]
  · have : c ∉ pre.toFinset := fun h => hc (List.mem_toFinset.1 h)
    simp [Finset.card_insert_of_not_mem this, hc]

/-- The loop of `getDuplicates`, started after the letters `pre` have been read. -/
theorem getDuplicates_loop (rest : List Char) :
    ∀ (pre : List Char) (m : CppMap Char Int) (n : Int),
      (∀ d, (CppMap.find? m d).getD 0 = (pre.count d : Int)) →
      (rest.foldl getDuplicatesStep (m, n)).2 + ((pre ++ rest).toFinset.card : Int)
        = n + (rest.length : Int) + (pre.toFinset.card : Int) := by
  induction rest with
  | nil =>
    intro pre m n _
    simp
  | cons c rest ih =>
    intro pre m n hm
    obtain ⟨h1, h2⟩ := getDuplicatesStep_spec pre m n c hm
    have hstep : getDuplicatesStep (m, n) c
        = ((getDuplicatesStep (m, n) c).1, (getDuplicatesStep (m, n) c).2) := rfl
    rw [List.foldl_cons, hstep]
    have := ih (pre ++ [c]) _ (getDuplicatesStep (m, n) c).2 h1
    rw [List.append_assoc, List.singleton_append] at this
    rw [this, h2, card_toFinset_append_singleton]
    simp only [List.length_cons]
    push_cast
    split <;> ring

/-- C6: `getDuplicates(w)` equals the length of `w` minus the number of
distinct letters of `w` (a letter occurring 3 times contributes 2). -/
theorem getDuplicates_eq (word : List Char) :
    getDuplicates word = (word.length : Int) - (word.toFinset.card : Int) ∧
    getDuplicates word = (word.length : Int) - (word.dedup.length : Int) := by
  have h := getDuplicates_loop word [] [] 0 (by intro d; simp [CppMap.find?])
  have h1 : getDuplicates word = (word.length : Int) - (word.toFinset.card : Int) := by
    unfold getDuplicates
    simp only [List.nil_append, List.toFinset_nil, Finset.card_empty] at h
    push_cast at h
    omega
  refine ⟨h1, ?_⟩
  rw [h1, List.card_toFinset]

theorem foldl_increment_getD (word : List Char) :
    ∀ (m : CppMap Char Int) (d : Char),
      (CppMap.find? (word.foldl CppMap.increment m) d).getD 0
        = (CppMap.find? m d).getD 0 + (word.count d : Int) := by
  induction word with
  | nil =>
    intro m d
    simp
  | cons c rest ih =>
    intro m d
    rw [List.foldl_cons, ih, CppMap.find?_increment]
    by_cases hcd : c = d
    · subst hcd
      simp
      ring
    · have hdc : ¬ d = c := fun h => hcd h.symm
      simp [hcd, List.count_cons, hdc]

theorem getLetterCount_loop (wordsList : List (List Char)) :
    ∀ (m : CppMap Char Int) (d : Char),
      (CppMap.find?
          (wordsList.foldl (fun letterCount word => word.foldl CppMap.increment letterCount) m)
          d).getD 0
        = (CppMap.find? m d).getD 0 + (wordsList.map (fun v => (v.count d : Int))).sum := by
  induction wordsList with
  | nil =>
    intro m d
    simp
  | cons w rest ih =>
    intro m d
    rw [List.foldl_cons, ih, foldl_increment_getD]
    simp only [List.map_cons, List.sum_cons]
    ring

/-- The frequency table binds each letter to its number of occurrences in the
whole word list (an absent binding stands for zero occurrences). -/
theorem getLetterCount_getD (wordsList : List (List Char)) (d : Char) :
    (CppMap.find? (getLetterCount wordsList) d).getD 0
      = (wordsList.map (fun v => (v.count d : Int))).sum := by
  unfold getLetterCount
  rw [getLetterCount_loop]
  simp [CppMap.find?]

theorem getRanking_loop (letterCount : CppMap Char Int) (word : List Char) :
    ∀ r : Int,
      word.foldl
          (fun ranking letter =>
            match CppMap.find? letterCount letter with
            | some n => ranking + n
            | none => ranking)
          r
        = r + (word.map (fun c => (CppMap.find? letterCount c).getD 0)).sum := by
  induction word with
  | nil =>
    intro r
    simp
  | cons c rest ih =>
    intro r
    rw [List.foldl_cons, ih]
    cases h : CppMap.find? letterCount c with
    | none => simp [h]
    | some n =>
      simp only [List.map_cons, List.sum_cons, h, Option.getD_some]
      ring

theorem getRanking_eq (letterCount : CppMap Char Int) (word : List Char) :
    getRanking letterCount word
      = (word.map (fun c => (CppMap.find? letterCount c).getD 0)).sum := by
  unfold getRanking
  rw [getRanking_loop]
  simp

theorem foldl_append_map {α β : Type} (f : α → β) (l : List α) (init : List β) :
    l.foldl (fun acc x => acc ++ [f x]) init = init ++ l.map f := by
  induction l generalizing init with
  | nil => simp
  | cons x rest ih =>
    rw [List.foldl_cons, ih]
    simp

/-- C7: `getWords(D)` holds one `Word` per entry of `D`, in the same order, and
the ranking of each word is the sum, over its letter positions, of the number
of occurrences of that letter in all the words of `D` (sums taken in the
integers, without overflow); the duplicate count is `getDuplicates`. -/
theorem getWords_eq (wordsList : List (List Char)) :
    getWords wordsList
      = wordsList.map (fun w =>
          Word.mk w (getDuplicates w)
            ((w.map (fun c => (wordsList.map (fun v => (v.count c : Int))).sum)).sum)) := by
  unfold getWords
  have h := foldl_append_map
    (fun w : List Char => Word.mk w (getDuplicates w) (getRanking (getLetterCount wordsList) w))
    wordsList []
  simp only [List.nil_append] at h
  rw [h]
  apply List.map_congr_left
  intro w _
  simp only [getRanking_eq, getLetterCount_getD]

/-! ## Facts about the constraint updates -/

theorem updateKnownLetters_loop_mem (g : List Char) (t : List Char) :
    ∀ (K : CharSet) (c : Char),
      c ∈ t.foldl
          (fun known letter =>
            if decide (letter ∈ g) && !CharSet.contains known letter
            then CharSet.insert known letter else known)
          K ↔ c ∈ K ∨ (c ∈ t ∧ c ∈ g) := by
  induction t with
  | nil =>
    intro K c
    simp
  | cons x rest ih =>
    intro K c
    rw [List.foldl_cons, ih]
    by_cases hx : x ∈ g
    · by_cases hK : x ∈ K
      · simp only [hx, hK, CharSet.contains, decide_True, Bool.not_true, Bool.and_false,
          Bool.false_eq_true, if_false, List.mem_cons]
        constructor
        · rintro (h | ⟨h1, h2⟩)
          · exact Or.inl h
          · exact Or.inr ⟨Or.inr h1, h2⟩
        · rintro (h | ⟨h1 | h1, h2⟩)
          · exact Or.inl h
          · exact Or.inl (h1 ▸ hK)
          · exact Or.inr ⟨h1, h2⟩
      · simp only [hx, hK, CharSet.contains, decide_True, decide_False, Bool.not_false,
          Bool.and_true, if_true, List.mem_cons, CharSet.mem_insert]
        constructor
        · rintro ((h | h) | ⟨h1, h2⟩)
          · exact Or.inr ⟨Or.inl h, h ▸ hx⟩
          · exact Or.inl h
          · exact Or.inr ⟨Or.inr h1, h2⟩
        · rintro (h | ⟨h1 | h1, h2⟩)
          · exact Or.inl (Or.inr h)
          · exact Or.inl (Or.inl h1)
          · exact Or.inr ⟨h1, h2⟩
    · simp only [hx, decide_False, Bool.false_and, Bool.false_eq_true, if_false, List.mem_cons]
      constructor
      · rintro (h | ⟨h1, h2⟩)
        · exact Or.inl h
        · exact Or.inr ⟨Or.inr h1, h2⟩
      · rintro (h | ⟨h1 | h1, h2⟩)
        · exact Or.inl h
        · exact absurd (h1 ▸ h2) hx
        · exact Or.inr ⟨h1, h2⟩

theorem updateKnownLetters_loop_fixed (g : List Char) (t : List Char) :
    ∀ (K : CharSet), (∀ c ∈ t, c ∈ g → c ∈ K) →
      t.foldl
          (fun known letter =>
            if decide (letter ∈ g) && !CharSet.contains known letter
            then CharSet.insert known letter else known)
          K = K := by
  induction t with
  | nil =>
    intro K _
    rfl
  | cons x rest ih =>
    intro K hK
    have hcond : (decide (x ∈ g) && !CharSet.contains K x) = false := by
      by_cases hx : x ∈ g
      · have := hK x (List.mem_cons_self x rest) hx
        simp [CharSet.contains, this]
      · simp [hx]
    rw [List.foldl_cons]
    simp only [hcond, Bool.false_eq_true, if_false]
    exact ih K (fun c hc hg => hK c (List.mem_cons_of_mem x hc) hg)

/-- C8: after `updateKnownLetters` the known letters are exactly the letters
of `K` together with the letters that occur both in the target and in the
guess, and a second call with the same guess and target changes nothing.  The
function has no test on the lengths, so this holds for a guess and a target of
the same length and of different lengths alike. -/
theorem updateKnownLetters_spec (knownLetters : CharSet) (currentGuess : Word)
    (targetWord : List Char) :
    (∀ c, c ∈ updateKnownLetters knownLetters currentGuess targetWord ↔
      c ∈ knownLetters ∨ (c ∈ targetWord ∧ c ∈ currentGuess.word)) ∧
    updateKnownLetters (updateKnownLetters knownLetters currentGuess targetWord)
        currentGuess targetWord
      = updateKnownLetters knownLetters currentGuess targetWord := by
  constructor
  · intro c
    exact updateKnownLetters_loop_mem currentGuess.word targetWord knownLetters c
  · apply updateKnownLetters_loop_fixed currentGuess.word targetWord
    intro c hc hg
    exact (updateKnownLetters_loop_mem currentGuess.word targetWord knownLetters c).2
      (Or.inr ⟨hc, hg⟩)

theorem find?_updateKnownPositionsStep (g : Word) (t : List Char) (m : CppMap Int Char)
    (n : Nat) (a b : Char) (ha : t[n]? = some a) (hb : g.word[n]? = some b) (i : Int) :
    CppMap.find? (updateKnownPositionsStep g t m n) i
      = if a = b ∧ (n : Int) = i then some ((CppMap.find? m i).getD a)
        else CppMap.find? m i := by
  unfold updateKnownPositionsStep
  simp only [ha, hb]
  by_cases hab : a = b
  · subst hab
    cases hc : CppMap.find? m (n : Int) with
    | none =>
      have hcont : CppMap.contains m (n : Int) = false := by simp [CppMap.contains, hc]
      simp only [hcont, decide_True, Bool.not_false, Bool.and_true, if_true]
      rw [CppMap.find?_insert, hc]
      by_cases hni : (n : Int) = i
      · subst hni
        simp [hc]
      · simp [hni]
    | some x =>
      have hcont : CppMap.contains m (n : Int) = true := by simp [CppMap.contains, hc]
      simp only [hcont, Bool.not_true, Bool.and_false, Bool.false_eq_true, if_false]
      by_cases hni : (n : Int) = i
      · subst hni
        simp [hc]
      · simp [hni]
  · simp [hab]

theorem updateKnownPositions_loop (g : Word) (t : List Char) (P : CppMap Int Char)
    (hlen : g.word.length = t.length) :
    ∀ n, n ≤ t.length → ∀ i : Int,
      CppMap.find? ((List.range n).foldl (updateKnownPositionsStep g t) P) i
        = match CppMap.find? P i with
          | some c => some c
          | none =>
            if 0 ≤ i ∧ i.toNat < n ∧ t[i.toNat]? = g.word[i.toNat]? then t[i.toNat]?
            else none := by
  intro n
  induction n with
  | zero =>
    intro _ i
    cases h : CppMap.find? P i <;> simp [h]
  | succ n ih =>
    intro hn i
    have hnt : n < t.length := by omega
    have hng : n < g.word.length := by omega
    have ha : t[n]? = some t[n] := List.getElem?_eq_getElem hnt
    have hb : g.word[n]? = some g.word[n] := List.getElem?_eq_getElem hng
    rw [List.range_succ, List.foldl_append, List.foldl_cons, List.foldl_nil,
      find?_updateKnownPositionsStep g t _ n _ _ ha hb i, ih (by omega) i]
    cases hP : CppMap.find? P i with
    | some c =>
      simp only
      split <;> simp
    | none =>
      simp only
      by_cases hni : (n : Int) = i
      · subst hni
        have h1 : ((n : Int)).toNat = n := by simp
        by_cases hab : t[n] = g.word[n]
        · simp [h1, hab, ha, hb]
        · simp [h1, hab, ha, hb]
      · have hiff : (0 ≤ i ∧ i.toNat < n + 1 ∧ t[i.toNat]? = g.word[i.toNat]?) ↔
            (0 ≤ i ∧ i.toNat < n ∧ t[i.toNat]? = g.word[i.toNat]?) := by
          constructor
          · rintro ⟨h0, h1, h2⟩
            exact ⟨h0, by omega, h2⟩
          · rintro ⟨h0, h1, h2⟩
            exact ⟨h0, by omega, h2⟩
        simp only [hni, and_false, if_false]
        by_cases hc : 0 ≤ i ∧ i.toNat < n ∧ t[i.toNat]? = g.word[i.toNat]?
        · rw [if_pos hc, if_pos (hiff.2 hc)]
        · rw [if_neg hc, if_neg (fun h => hc (hiff.1 h))]

/-- C9: for a guess and a target of the same length `L`, after
`updateKnownPositions` every position bound in `P` is still bound to the same
letter, and a position `i` that is not bound in `P` is bound in the result
exactly when `0 <= i < L` and `t[i] == g[i]`, and then it is bound to `t[i]`. -/
theorem updateKnownPositions_spec (knownPositions : CppMap Int Char) (currentGuess : Word)
    (targetWord : List Char) (hlen : currentGuess.word.length = targetWord.length) :
    (∀ (i : Int) (c : Char), CppMap.find? knownPositions i = some c →
      CppMap.find? (updateKnownPositions knownPositions currentGuess targetWord) i = some c) ∧
    (∀ i : Int, CppMap.find? knownPositions i = none →
      CppMap.find? (updateKnownPositions knownPositions currentGuess targetWord) i
        = if 0 ≤ i ∧ i.toNat < targetWord.length ∧
              targetWord[i.toNat]? = currentGuess.word[i.toNat]?
          then targetWord[i.toNat]? else none) := by
  have hupd : updateKnownPositions knownPositions currentGuess targetWord
      = (List.range targetWord.length).foldl (updateKnownPositionsStep currentGuess targetWord)
          knownPositions := by
    unfold updateKnownPositions
    simp [hlen]
  have hloop := updateKnownPositions_loop currentGuess targetWord knownPositions hlen
    targetWord.length (le_refl _)
  constructor
  · intro i c hc
    rw [hupd, hloop i, hc]
  · intro i hc
    rw [hupd, hloop i, hc]

/-- The instance of C9 at the guess `cater` and the target `later`, with
position 1 already known. -/
theorem updateKnownPositions_spec_witness :
    ((Word.mk "cater".toList 0 0).word.length = "later".toList.length) ∧
    (∀ (i : Int) (c : Char), CppMap.find? ([(1, 'a')] : CppMap Int Char) i = some c →
      CppMap.find? (updateKnownPositions [(1, 'a')] (Word.mk "cater".toList 0 0)
        "later".toList) i = some c) ∧
    (∀ i : Int, CppMap.find? ([(1, 'a')] : CppMap Int Char) i = none →
      CppMap.find? (updateKnownPositions [(1, 'a')] (Word.mk "cater".toList 0 0)
        "later".toList) i
        = if 0 ≤ i ∧ i.toNat < "later".toList.length ∧
              "later".toList[i.toNat]? = (Word.mk "cater".toList 0 0).word[i.toNat]?
          then "later".toList[i.toNat]? else none) :=
  ⟨by decide,
   updateKnownPositions_spec [(1, 'a')] (Word.mk "cater".toList 0 0) "later".toList
     (by decide)⟩

theorem CharSet.insert_nil (b : Char) : CharSet.insert [] b = [b] := by
  simp [CharSet.insert, CharSet.contains, CharSet.insertSorted]

theorem find?_updateExcludedPositionsStep (g : Word) (t : List Char) (m : CppMap Int CharSet)
    (n : Nat) (a b : Char) (ha : t[n]? = some a) (hb : g.word[n]? = some b) (i : Int) :
    CppMap.find? (updateExcludedPositionsStep g t m n) i
      = if a ≠ b ∧ (n : Int) = i then some (CharSet.insert ((CppMap.find? m i).getD []) b)
        else CppMap.find? m i := by
  unfold updateExcludedPositionsStep
  simp only [ha, hb]
  by_cases hab : a = b
  · simp [hab]
  · simp only [ne_eq, hab, not_false_eq_true, if_true, true_and]
    cases hc : CppMap.find? m (n : Int) with
    | none =>
      have hcont : CppMap.contains m (n : Int) = false := by simp [CppMap.contains, hc]
      simp only [hcont, Bool.false_eq_true, if_false]
      rw [CppMap.find?_insert, hc]
      by_cases hni : (n : Int) = i
      · subst hni
        simp [hc, CharSet.insert_nil]
      · simp [hni]
    | some x =>
      have hcont : CppMap.contains m (n : Int) = true := by simp [CppMap.contains, hc]
      simp only [hcont, if_true]
      rw [CppMap.find?_modify]
      by_cases hni : (n : Int) = i
      · subst hni
        simp [hc]
      · simp [hni]

theorem updateExcludedPositions_loop (g : Word) (t : List Char) (E : CppMap Int CharSet)
    (hlen : g.word.length = t.length) :
    ∀ n, n ≤ t.length → ∀ i : Int,
      CppMap.find? ((List.range n).foldl (updateExcludedPositionsStep g t) E) i
        = if 0 ≤ i ∧ i.toNat < n ∧ t[i.toNat]? ≠ g.word[i.toNat]? then
            (g.word[i.toNat]?).map (fun b => CharSet.insert ((CppMap.find? E i).getD []) b)
          else CppMap.find? E i := by
  intro n
  induction n with
  | zero =>
    intro _ i
    simp
  | succ n ih =>
    intro hn i
    have hnt : n < t.length := by omega
    have hng : n < g.word.length := by omega
    have ha : t[n]? = some t[n] := List.getElem?_eq_getElem hnt
    have hb : g.word[n]? = some g.word[n] := List.getElem?_eq_getElem hng
    rw [List.range_succ, List.foldl_append, List.foldl_cons, List.foldl_nil,
      find?_updateExcludedPositionsStep g t _ n _ _ ha hb i, ih (by omega) i]
    by_cases hni : (n : Int) = i
    · subst hni
      have h1 : ((n : Int)).toNat = n := by simp
      by_cases hab : t[n] = g.word[n]
      · simp [h1, hab, ha, hb]
      · simp [h1, hab, ha, hb]
    · have hiff : (0 ≤ i ∧ i.toNat < n + 1 ∧ t[i.toNat]? ≠ g.word[i.toNat]?) ↔
          (0 ≤ i ∧ i.toNat < n ∧ t[i.toNat]? ≠ g.word[i.toNat]?) := by
        constructor
        · rintro ⟨h0, h1, h2⟩
          exact ⟨h0, by omega, h2⟩
        · rintro ⟨h0, h1, h2⟩
          exact ⟨h0, by omega, h2⟩
      simp only [hni, and_false, if_false]
      by_cases hc : 0 ≤ i ∧ i.toNat < n ∧ t[i.toNat]? ≠ g.word[i.toNat]?
      · rw [if_pos hc, if_pos (hiff.2 hc)]
      · rw [if_neg hc, if_neg (fun h => hc (hiff.1 h))]

/-- C10: for a guess and a target of the same length `L`, after
`updateExcludedPositions` the set bound to a position `i < L` with
`t[i] != g[i]` is the old set at `i` (the empty set when there was none) with
`g[i]` added; the binding of a position `i < L` with `t[i] == g[i]` and of
every position outside `0 .. L-1` is what it was before, so no set is created
where there was none. -/
theorem updateExcludedPositions_spec (excludedPositions : CppMap Int CharSet)
    (currentGuess : Word) (targetWord : List Char)
    (hlen : currentGuess.word.length = targetWord.length) :
    (∀ (i : Nat) (a b : Char), targetWord[i]? = some a → currentGuess.word[i]? = some b →
      a ≠ b →
      CppMap.find? (updateExcludedPositions excludedPositions currentGuess targetWord) (i : Int)
        = some (CharSet.insert ((CppMap.find? excludedPositions (i : Int)).getD []) b)) ∧
    (∀ (i : Nat) (a : Char), targetWord[i]? = some a → currentGuess.word[i]? = some a →
      CppMap.find? (updateExcludedPositions excludedPositions currentGuess targetWord) (i : Int)
        = CppMap.find? excludedPositions (i : Int)) ∧
    (∀ k : Int, (k < 0 ∨ (targetWord.length : Int) ≤ k) →
      CppMap.find? (updateExcludedPositions excludedPositions currentGuess targetWord) k
        = CppMap.find? excludedPositions k) := by
  have hupd : updateExcludedPositions excludedPositions currentGuess targetWord
      = (List.range targetWord.length).foldl
          (updateExcludedPositionsStep currentGuess targetWord) excludedPositions := by
    unfold updateExcludedPositions
    simp [hlen]
  have hloop := updateExcludedPositions_loop currentGuess targetWord excludedPositions hlen
    targetWord.length (le_refl _)
  refine ⟨?_, ?_, ?_⟩
  · intro i a b ha hb hab
    have hi : i < targetWord.length := by
      by_contra h
      rw [List.getElem?_eq_none (by omega)] at ha
      exact Option.noConfusion ha
    have hcond : 0 ≤ (i : Int) ∧ ((i : Int)).toNat < targetWord.length ∧
        targetWord[((i : Int)).toNat]? ≠ currentGuess.word[((i : Int)).toNat]? := by
      refine ⟨by omega, by simpa using hi, ?_⟩
      simp only [Int.toNat_ofNat, ha, hb, ne_eq, Option.some.injEq]
      exact hab
    rw [hupd, hloop (i : Int), if_pos hcond]
    simp [hb]
  · intro i a ha hb
    have hcond : ¬ (0 ≤ (i : Int) ∧ ((i : Int)).toNat < targetWord.length ∧
        targetWord[((i : Int)).toNat]? ≠ currentGuess.word[((i : Int)).toNat]?) := by
      rintro ⟨_, _, h⟩
      simp only [Int.toNat_ofNat, ha, hb, ne_eq, not_true_eq_false] at h
    rw [hupd, hloop (i : Int), if_neg hcond]
  · intro k hk
    have hcond : ¬ (0 ≤ k ∧ k.toNat < targetWord.length ∧
        targetWord[k.toNat]? ≠ currentGuess.word[k.toNat]?) := by
      rintro ⟨h0, h1, _⟩
      omega
    rw [hupd, hloop k, if_neg hcond]

/-- The instance of C10 at the guess `cater` and the target `later`, with the
letter `x` already excluded at position 0. -/
theorem updateExcludedPositions_spec_witness :
    ((Word.mk "cater".toList 0 0).word.length = "later".toList.length) ∧
    (∀ (i : Nat) (a b : Char), "later".toList[i]? = some a →
      (Word.mk "cater".toList 0 0).word[i]? = some b → a ≠ b →
      CppMap.find? (updateExcludedPositions [(0, ['x'])] (Word.mk "cater".toList 0 0)
        "later".toList) (i : Int)
        = some (CharSet.insert
            ((CppMap.find? ([(0, ['x'])] : CppMap Int CharSet) (i : Int)).getD []) b)) ∧
    (∀ (i : Nat) (a : Char), "later".toList[i]? = some a →
      (Word.mk "cater".toList 0 0).word[i]? = some a →
      CppMap.find? (updateExcludedPositions [(0, ['x'])] (Word.mk "cater".toList 0 0)
        "later".toList) (i : Int)
        = CppMap.find? ([(0, ['x'])] : CppMap Int CharSet) (i : Int)) ∧
    (∀ k : Int, (k < 0 ∨ (("later".toList.length : Nat) : Int) ≤ k) →
      CppMap.find? (updateExcludedPositions [(0, ['x'])] (Word.mk "cater".toList 0 0)
        "later".toList) k
        = CppMap.find? ([(0, ['x'])] : CppMap Int CharSet) k) :=
  ⟨by decide,
   updateExcludedPositions_spec [(0, ['x'])] (Word.mk "cater".toList 0 0) "later".toList
     (by decide)⟩

/-! ## Guess and target of different lengths -/

/-- C11 as stated fails: `updateKnownLetters` at the guess `ab` and the target
`a`, whose lengths differ, starting from no known letter, makes the letter `a`
known, so the call is not a no-op.  The function has no test on the lengths;
it reads no index, and its only call in `main` passes two words of the pool. -/
theorem updateKnownLetters_length_mismatch :
    (Word.mk ['a', 'b'] 0 0).word.length ≠ ['a'].length ∧
    updateKnownLetters [] (Word.mk ['a', 'b'] 0 0) ['a'] = ['a'] ∧
    updateKnownLetters [] (Word.mk ['a', 'b'] 0 0) ['a'] ≠ [] := by
  decide

/-- C11, amended: for a guess and a target whose lengths differ,
`updateKnownLetters` does what it does for equal lengths: after the call the
known letters are those of `K` together with the target letters that occur in
the guess, and the call returns the set unchanged exactly when every target
letter that occurs in the guess is already known. -/
theorem updateKnownLetters_length_mismatch_spec (knownLetters : CharSet) (currentGuess : Word)
    (targetWord : List Char) (_hlen : currentGuess.word.length ≠ targetWord.length) :
    (∀ c, c ∈ updateKnownLetters knownLetters currentGuess targetWord ↔
      c ∈ knownLetters ∨ (c ∈ targetWord ∧ c ∈ currentGuess.word)) ∧
    (updateKnownLetters knownLetters currentGuess targetWord = knownLetters ↔
      ∀ c ∈ targetWord, c ∈ currentGuess.word → c ∈ knownLetters) := by
  have hmem := updateKnownLetters_loop_mem currentGuess.word targetWord knownLetters
  refine ⟨hmem, ?_, ?_⟩
  · intro heq c hct hcg
    have hc : c ∈ updateKnownLetters knownLetters currentGuess targetWord :=
      (hmem c).2 (Or.inr ⟨hct, hcg⟩)
    rw [heq] at hc
    exact hc
  · intro hall
    exact updateKnownLetters_loop_fixed currentGuess.word targetWord knownLetters hall

/-- The instance of the amended C11 at the guess `ab` and the target `b`, with
the letter `b` already known: the call changes nothing. -/
theorem updateKnownLetters_length_mismatch_spec_witness :
    (Word.mk ['a', 'b'] 0 0).word.length ≠ ['b'].length ∧
    (∀ c ∈ ['b'], c ∈ (Word.mk ['a', 'b'] 0 0).word → c ∈ (['b'] : CharSet)) ∧
    updateKnownLetters ['b'] (Word.mk ['a', 'b'] 0 0) ['b'] = ['b'] :=
  ⟨by decide, by decide,
   (updateKnownLetters_length_mismatch_spec ['b'] (Word.mk ['a', 'b'] 0 0) ['b']
      (by decide)).2.2 (by decide)⟩

/-- C12: when the guess and the target differ in length, `updateKnownPositions`
returns the known-positions map unchanged and `updateExcludedPositions` returns
the excluded-positions map unchanged; both return before any index is read. -/
theorem updatePositions_length_mismatch (knownPositions : CppMap Int Char)
    (excludedPositions : CppMap Int CharSet) (currentGuess : Word) (targetWord : List Char)
    (hlen : currentGuess.word.length ≠ targetWord.length) :
    updateKnownPositions knownPositions currentGuess targetWord = knownPositions ∧
    updateExcludedPositions excludedPositions currentGuess targetWord = excludedPositions := by
  constructor
  · unfold updateKnownPositions
    rw [if_pos hlen]
  · unfold updateExcludedPositions
    rw [if_pos hlen]

/-- The instance of C12 at the guess `ab` and the target `a`. -/
theorem updatePositions_length_mismatch_witness :
    (Word.mk ['a', 'b'] 0 0).word.length ≠ ['a'].length ∧
    updateKnownPositions [(3, 'x')] (Word.mk ['a', 'b'] 0 0) ['a'] = [(3, 'x')] ∧
    updateExcludedPositions [(0, ['y'])] (Word.mk ['a', 'b'] 0 0) ['a'] = [(0, ['y'])] :=
  ⟨by decide,
   updatePositions_length_mismatch [(3, 'x')] [(0, ['y'])] (Word.mk ['a', 'b'] 0 0) ['a']
     (by decide)⟩

/-! ## Idempotence of `updateKnownPositions` -/

theorem foldl_fixed {α β : Type} (f : β → α → β) (b : β) (l : List α)
    (h : ∀ x ∈ l, f b x = b) : l.foldl f b = b := by
  induction l with
  | nil => rfl
  | cons x rest ih =>
    rw [List.foldl_cons, h x (List.mem_cons_self x rest)]
    exact ih (fun y hy => h y (List.mem_cons_of_mem x hy))

/-- C14: a second `updateKnownPositions` with the same guess and target leaves
the map as the first call left it. -/
theorem updateKnownPositions_idempotent (knownPositions : CppMap Int Char)
    (currentGuess : Word) (targetWord : List Char) :
    updateKnownPositions (updateKnownPositions knownPositions currentGuess targetWord)
        currentGuess targetWord
      = updateKnownPositions knownPositions currentGuess targetWord := by
  by_cases hlen : currentGuess.word.length = targetWord.length
  · have hloop := updateKnownPositions_loop currentGuess targetWord knownPositions hlen
      targetWord.length (le_refl _)
    have hupd : ∀ P : CppMap Int Char, updateKnownPositions P currentGuess targetWord
        = (List.range targetWord.length).foldl
            (updateKnownPositionsStep currentGuess targetWord) P := by
      intro P
      unfold updateKnownPositions
      simp [hlen]
    rw [hupd (updateKnownPositions knownPositions currentGuess targetWord)]
    apply foldl_fixed
    intro n hn
    have hnt : n < targetWord.length := List.mem_range.1 hn
    have hng : n < currentGuess.word.length := by omega
    have ha : targetWord[n]? = some targetWord[n] := List.getElem?_eq_getElem hnt
    have hb : currentGuess.word[n]? = some currentGuess.word[n] := List.getElem?_eq_getElem hng
    unfold updateKnownPositionsStep
    simp only [ha, hb]
    by_cases hab : targetWord[n] = currentGuess.word[n]
    · have hfind : CppMap.find? (updateKnownPositions knownPositions currentGuess targetWord)
          (n : Int) ≠ none := by
        rw [hupd knownPositions, hloop (n : Int)]
        cases hP : CppMap.find? knownPositions (n : Int) with
        | some c => simp
        | none =>
          have hcond : 0 ≤ (n : Int) ∧ ((n : Int)).toNat < targetWord.length ∧
              targetWord[((n : Int)).toNat]? = currentGuess.word[((n : Int)).toNat]? := by
            refine ⟨by omega, by simpa using hnt, ?_⟩
            simp only [Int.toNat_ofNat, ha, hb, hab]
          dsimp only
          rw [if_pos hcond]
          simp [ha]
      have hcont : CppMap.contains (updateKnownPositions knownPositions currentGuess targetWord)
          (n : Int) = true := by
        unfold CppMap.contains
        cases hf : CppMap.find? (updateKnownPositions knownPositions currentGuess targetWord)
            (n : Int) with
        | none => exact absurd hf hfind
        | some c => rfl
      simp [hcont]
    · simp [hab]
  · have h1 : updateKnownPositions knownPositions currentGuess targetWord = knownPositions := by
      unfold updateKnownPositions
      rw [if_pos hlen]
    rw [h1, h1]

/-! ## The two scenarios of the specification -/

/-- C15: with the guess `alert` and the target `later`, from the empty
constraint state, `updateKnownLetters` yields exactly the letters `a e l r t`,
`updateKnownPositions` adds no position (no index carries the same letter in
both words; at index 2 the letters are `e` and `t`), and
`updateExcludedPositions` yields exactly `0:{a}, 1:{l}, 2:{e}, 3:{r}, 4:{t}`. -/
theorem scenario_alert_later :
    updateKnownLetters [] (Word.mk "alert".toList 0 23) "later".toList
      = ['a', 'e', 'l', 'r', 't'] ∧
    (∀ c, c ∈ updateKnownLetters [] (Word.mk "alert".toList 0 23) "later".toList ↔
      c ∈ ['a', 'l', 't', 'e', 'r']) ∧
    updateKnownPositions [] (Word.mk "alert".toList 0 23) "later".toList = [] ∧
    (∀ i : Fin 5, "alert".toList[i.val]? ≠ "later".toList[i.val]?) ∧
    "alert".toList[2]? = some 'e' ∧ "later".toList[2]? = some 't' ∧
    updateExcludedPositions [] (Word.mk "alert".toList 0 23) "later".toList
      = [(0, ['a']), (1, ['l']), (2, ['e']), (3, ['r']), (4, ['t'])] := by
  have h1 : updateKnownLetters [] (Word.mk "alert".toList 0 23) "later".toList
      = ['a', 'e', 'l', 'r', 't'] := by decide
  have h3 : updateKnownPositions [] (Word.mk "alert".toList 0 23) "later".toList = [] := by
    rfl
  have h4 : ∀ i : Fin 5, "alert".toList[i.val]? ≠ "later".toList[i.val]? := by decide
  have h5 : "alert".toList[2]? = some 'e' := by decide
  have h6 : "later".toList[2]? = some 't' := by decide
  have h7 : updateExcludedPositions [] (Word.mk "alert".toList 0 23) "later".toList
      = [(0, ['a']), (1, ['l']), (2, ['e']), (3, ['r']), (4, ['t'])] := by rfl
  refine ⟨h1, ?_, h3, h4, h5, h6, h7⟩
  intro c
  rw [h1]
  clear h1 h3 h4 h5 h6 h7
  simp only [List.mem_cons, List.mem_singleton, List.not_mem_nil, or_false]
  tauto

/-- C16: for the dictionary `alert, alter, later, learn, rates`, `getWords`
gives the five words duplicate count 0 and rankings 23, 23, 23, 20, 20, and
`getMostRelevantWord` on that pool returns (for every fuel of at least one
pass) a word with duplicate count 0 and ranking 23, the highest of the five;
it is one of `alert`, `alter`, `later`. -/
theorem scenario_five_words :
    getWords (["alert", "alter", "later", "learn", "rates"].map String.toList)
      = [Word.mk "alert".toList 0 23, Word.mk "alter".toList 0 23, Word.mk "later".toList 0 23,
         Word.mk "learn".toList 0 20, Word.mk "rates".toList 0 20] ∧
    ∃ w : Word,
      (∀ n : Nat, getMostRelevantWord (n + 1)
        (getWords (["alert", "alter", "later", "learn", "rates"].map String.toList)) = some w) ∧
      w.duplicates = 0 ∧ w.ranking = 23 ∧
      (w.word = "alert".toList ∨ w.word = "alter".toList ∨ w.word = "later".toList) ∧
      ∀ v ∈ getWords (["alert", "alter", "later", "learn", "rates"].map String.toList),
        v.ranking ≤ w.ranking := by
  have hpool : getWords (["alert", "alter", "later", "learn", "rates"].map String.toList)
      = [Word.mk "alert".toList 0 23, Word.mk "alter".toList 0 23, Word.mk "later".toList 0 23,
         Word.mk "learn".toList 0 20, Word.mk "rates".toList 0 20] := by
    rfl
  refine ⟨hpool, ?_⟩
  rw [hpool]
  clear hpool
  obtain ⟨w, hw, hdup, hmax, hret⟩ := getMostRelevantWord_at
    [Word.mk "alert".toList 0 23, Word.mk "alter".toList 0 23, Word.mk "later".toList 0 23,
      Word.mk "learn".toList 0 20, Word.mk "rates".toList 0 20] 0
    ⟨Word.mk "alert".toList 0 23, List.mem_cons_self _ _, le_refl _⟩
    (fun j hj => absurd hj (Nat.not_lt_zero j))
  have h23 : (23 : Int) ≤ w.ranking :=
    hmax (Word.mk "alert".toList 0 23) (List.mem_cons_self _ _) (le_refl _)
  have hall : ∀ v ∈ [Word.mk "alert".toList 0 23, Word.mk "alter".toList 0 23,
      Word.mk "later".toList 0 23, Word.mk "learn".toList 0 20, Word.mk "rates".toList 0 20],
      v.duplicates = 0 ∧ v.ranking ≤ 23 ∧
      (23 ≤ v.ranking → v.word = "alert".toList ∨ v.word = "alter".toList ∨
        v.word = "later".toList) := by
    decide
  obtain ⟨hw0, hw23, hword⟩ := hall w hw
  refine ⟨w, fun n => hret (n + 1) (Nat.succ_pos n), hw0, le_antisymm hw23 h23, hword h23, ?_⟩
  intro v hv
  exact le_trans (hall v hv).2.1 h23

/-! ## Monotonicity of the candidate filter -/

/-- The result of `isWordPossible` in terms of its four tests. -/
theorem isWordPossible_eq_false_iff_tests (word : Word) (G K : CharSet)
    (kp : CppMap Int Char) (ep : CppMap Int CharSet) :
    isWordPossible word G K kp ep = false ↔
      (kp.any (knownPositionFails word.word) = true ∨
       (List.range word.word.length).any (excludedPositionHits word.word ep) = true ∨
       K.any (fun letter => !decide (letter ∈ word.word)) = true ∨
       (getExcludedLetters G K).all (fun letter => !decide (letter ∈ word.word)) = false) := by
  unfold isWordPossible
  by_cases c1 : kp.any (knownPositionFails word.word) = true
  · simp [c1]
  by_cases c2 : (List.range word.word.length).any (excludedPositionHits word.word ep) = true
  · simp [c1, c2]
  by_cases c3 : K.any (fun letter => !decide (letter ∈ word.word)) = true
  · simp only [c1, c2, c3]
    simp
  by_cases c4 : (getExcludedLetters G K).all (fun letter => !decide (letter ∈ word.word)) = true
  · simp only [c1, c2, c3, c4]
    simp
  · have c4f : (getExcludedLetters G K).all (fun letter => !decide (letter ∈ word.word))
        = false := by
      simpa using c4
    simp only [c1, c2, c3, c4f]
    simp

theorem excludedLetterPresent_iff (word : List Char) (G K : CharSet) :
    (getExcludedLetters G K).all (fun letter => !decide (letter ∈ word)) = false ↔
      ∃ c ∈ word, c ∈ G ∧ c ∉ K := by
  have h := all_excludedLetterAbsent_iff word G K
  constructor
  · intro hf
    by_contra hne
    rw [h.2 hne] at hf
    exact Bool.noConfusion hf
  · intro hex
    cases hall : (getExcludedLetters G K).all (fun letter => !decide (letter ∈ word)) with
    | false => rfl
    | true => exact absurd hex (h.1 hall)

/-- C13 as stated fails: the word `a` is rejected when `a` is guessed and not
known, and accepted in the state that only adds `a` to the known letters. -/
theorem isWordPossible_monotone_counterexample :
    (∀ c ∈ (['a'] : CharSet), c ∈ (['a'] : CharSet)) ∧
    (∀ c ∈ ([] : CharSet), c ∈ (['a'] : CharSet)) ∧
    (∀ p ∈ ([] : CppMap Int Char), p ∈ ([] : CppMap Int Char)) ∧
    (∀ (i : Int) (s : CharSet), CppMap.find? ([] : CppMap Int CharSet) i = some s →
      ∃ s', CppMap.find? ([] : CppMap Int CharSet) i = some s' ∧ ∀ c ∈ s, c ∈ s') ∧
    isWordPossible (Word.mk ['a'] 0 1) ['a'] [] [] [] = false ∧
    isWordPossible (Word.mk ['a'] 0 1) ['a'] ['a'] [] [] = true := by
  refine ⟨by decide, by decide, by decide, ?_, by decide, by decide⟩
  intro i s h
  simp [CppMap.find?] at h

/-- C13, amended: when a state only adds knowledge (guessed and known letters
are supersets, every known-position binding is kept, every excluded set is a
superset) and no letter that was already guessed becomes known, a word that
`isWordPossible` rejected is still rejected. -/
theorem isWordPossible_monotone (word : Word) (G K G' K' : CharSet)
    (kp kp' : CppMap Int Char) (ep ep' : CppMap Int CharSet)
    (hG : ∀ c ∈ G, c ∈ G') (hK : ∀ c ∈ K, c ∈ K') (hkp : ∀ p ∈ kp, p ∈ kp')
    (hep : ∀ (i : Int) (s : CharSet), CppMap.find? ep i = some s →
      ∃ s', CppMap.find? ep' i = some s' ∧ ∀ c ∈ s, c ∈ s')
    (hnew : ∀ c ∈ G, c ∈ K' → c ∈ K)
    (h : isWordPossible word G K kp ep = false) :
    isWordPossible word G' K' kp' ep' = false := by
  rw [isWordPossible_eq_false_iff_tests] at h ⊢
  rcases h with h1 | h2 | h3 | h4
  · left
    rw [List.any_eq_true] at h1 ⊢
    obtain ⟨p, hp, hf⟩ := h1
    exact ⟨p, hkp p hp, hf⟩
  · right; left
    rw [any_excludedPositionHits_iff] at h2 ⊢
    obtain ⟨i, s, c, hi, hs, hc, hcs⟩ := h2
    obtain ⟨s', hs', hsub⟩ := hep (i : Int) s hs
    exact ⟨i, s', c, hi, hs', hc, hsub c hcs⟩
  · right; right; left
    rw [any_knownLetterMissing_iff] at h3 ⊢
    obtain ⟨c, hc, hw⟩ := h3
    exact ⟨c, hK c hc, hw⟩
  · right; right; right
    rw [excludedLetterPresent_iff] at h4 ⊢
    obtain ⟨c, hc, hg, hk⟩ := h4
    exact ⟨c, hc, hG c hg, fun hk' => hk (hnew c hg hk')⟩

/-- The instance of the amended C13 at the word `ab`, rejected because `b` is
guessed and not known, when the letter `a` becomes known and guessed. -/
theorem isWordPossible_monotone_witness :
    (∀ c ∈ (['b'] : CharSet), c ∈ (['a', 'b'] : CharSet)) ∧
    (∀ c ∈ ([] : CharSet), c ∈ (['a'] : CharSet)) ∧
    (∀ p ∈ ([] : CppMap Int Char), p ∈ ([(0, 'a')] : CppMap Int Char)) ∧
    (∀ c ∈ (['b'] : CharSet), c ∈ (['a'] : CharSet) → c ∈ ([] : CharSet)) ∧
    isWordPossible (Word.mk ['a', 'b'] 0 2) ['b'] [] [] [] = false ∧
    isWordPossible (Word.mk ['a', 'b'] 0 2) ['a', 'b'] ['a'] [(0, 'a')] [] = false :=
  ⟨by decide, by decide, by decide, by decide, by decide,
   isWordPossible_monotone (Word.mk ['a', 'b'] 0 2) ['b'] [] ['a', 'b'] ['a'] [] [(0, 'a')] [] []
     (by decide) (by decide) (by decide)
     (fun i s h => by simp [CppMap.find?] at h)
     (by decide) (by decide)⟩

/-! ## The pool shrinks in an unsolved round -/

/-- A guess that differs from a target of the same length differs at an index. -/
theorem exists_mismatch (g t : List Char) (hlen : g.length = t.length) (hne : t ≠ g) :
    ∃ (i : Nat) (a b : Char), t[i]? = some a ∧ g[i]? = some b ∧ a ≠ b := by
  by_contra hno
  apply hne
  apply List.ext_getElem?
  intro i
  by_cases hi : i < t.length
  · have hig : i < g.length := by omega
    have ha : t[i]? = some t[i] := List.getElem?_eq_getElem hi
    have hb : g[i]? = some g[i] := List.getElem?_eq_getElem hig
    have : t[i] = g[i] := by
      by_contra hab
      exact hno ⟨i, t[i], g[i], ha, hb, hab⟩
    rw [ha, hb, this]
  · rw [List.getElem?_eq_none (by omega), List.getElem?_eq_none (by omega)]

/-- After `updateExcludedPositions`, the guess is hit by the second test of
`isWordPossible` at an index where it differs from the target. -/
theorem guess_excluded_after_update (E : CppMap Int CharSet) (g : Word) (t : List Char)
    (hlen : g.word.length = t.length) (hne : t ≠ g.word) :
    (List.range g.word.length).any
      (excludedPositionHits g.word (updateExcludedPositions E g t)) = true := by
  obtain ⟨i, a, b, ha, hb, hab⟩ := exists_mismatch g.word t hlen hne
  have hi : i < t.length := by
    by_contra h
    rw [List.getElem?_eq_none (by omega)] at ha
    exact Option.noConfusion ha
  have hupd : updateExcludedPositions E g t
      = (List.range t.length).foldl (updateExcludedPositionsStep g t) E := by
    unfold updateExcludedPositions
    simp [hlen]
  have hloop := updateExcludedPositions_loop g t E hlen t.length (le_refl _) (i : Int)
  have hcond : 0 ≤ (i : Int) ∧ ((i : Int)).toNat < t.length ∧
      t[((i : Int)).toNat]? ≠ g.word[((i : Int)).toNat]? := by
    refine ⟨by omega, by simpa using hi, ?_⟩
    simp only [Int.toNat_ofNat, ha, hb, ne_eq, Option.some.injEq]
    exact hab
  rw [if_pos hcond] at hloop
  simp only [Int.toNat_ofNat, hb, Option.map_some'] at hloop
  rw [any_excludedPositionHits_iff]
  refine ⟨i, CharSet.insert ((CppMap.find? E (i : Int)).getD []) b, b, by omega, ?_, hb, ?_⟩
  · rw [hupd]
    exact hloop
  · exact (CharSet.mem_insert b b _).2 (Or.inl rfl)

/-- The second half of the loop body removes from the pool a guess that has
the length of the target and differs from it. -/
theorem applyGuess_removes_guess (targetWord : List Char) (s : GameState) (g : Word)
    (hmem : g ∈ s.possibleWords) (hlen : g.word.length = targetWord.length)
    (hne : targetWord ≠ g.word) :
    isWordPossible g (getGuessedLetters (applyGuess targetWord s g).guessedWords)
        (applyGuess targetWord s g).knownLetters (applyGuess targetWord s g).knownPositions
        (applyGuess targetWord s g).excludedPositions = false ∧
    g ∉ (applyGuess targetWord s g).possibleWords ∧
    (applyGuess targetWord s g).possibleWords.length < s.possibleWords.length := by
  have hrej : isWordPossible g (getGuessedLetters (s.guessedWords ++ [g]))
      (updateKnownLetters s.knownLetters g targetWord)
      (updateKnownPositions s.knownPositions g targetWord)
      (updateExcludedPositions s.excludedPositions g targetWord) = false := by
    rw [isWordPossible_eq_false_iff_tests]
    exact Or.inr (Or.inl (guess_excluded_after_update s.excludedPositions g targetWord hlen hne))
  have hpool : (applyGuess targetWord s g).possibleWords
      = s.possibleWords.filter (fun w =>
          isWordPossible w (getGuessedLetters (s.guessedWords ++ [g]))
            (updateKnownLetters s.knownLetters g targetWord)
            (updateKnownPositions s.knownPositions g targetWord)
            (updateExcludedPositions s.excludedPositions g targetWord)) := by
    unfold applyGuess
    exact getPossibleWords_eq_filter _ _ _ _ _
  refine ⟨hrej, ?_, ?_⟩
  · rw [hpool, List.mem_filter]
    rintro ⟨_, h⟩
    rw [hrej] at h
    exact Bool.noConfusion h
  · rw [hpool, List.length_filter_lt_length_iff_exists]
    exact ⟨g, hmem, by simp [hrej]⟩

/-- C17: when the guess `g` is a word of the pool, has the length of the
target and differs from the target, then in the state after the loop body
(guess recorded, the three constraint updates made, the pool filtered)
`isWordPossible` rejects `g`, the new pool does not contain `g`, and the new
pool is strictly smaller than the old pool. -/
theorem pool_strictly_shrinks (targetWord : List Char) (s : GameState) (g : Word)
    (hmem : g ∈ s.possibleWords) (hlen : g.word.length = targetWord.length)
    (hne : targetWord ≠ g.word) :
    isWordPossible g (getGuessedLetters (applyGuess targetWord s g).guessedWords)
        (applyGuess targetWord s g).knownLetters (applyGuess targetWord s g).knownPositions
        (applyGuess targetWord s g).excludedPositions = false ∧
    g ∉ (applyGuess targetWord s g).possibleWords ∧
    (applyGuess targetWord s g).possibleWords.length < s.possibleWords.length :=
  applyGuess_removes_guess targetWord s g hmem hlen hne

/-- The instance of C17 at the pool `alert, later`, the guess `alert` and the
target `later`, from the empty constraint state. -/
theorem pool_strictly_shrinks_witness :
    Word.mk "alert".toList 0 23 ∈
      (initialState [Word.mk "alert".toList 0 23, Word.mk "later".toList 0 23]).possibleWords ∧
    (Word.mk "alert".toList 0 23).word.length = "later".toList.length ∧
    "later".toList ≠ (Word.mk "alert".toList 0 23).word ∧
    (applyGuess "later".toList
        (initialState [Word.mk "alert".toList 0 23, Word.mk "later".toList 0 23])
        (Word.mk "alert".toList 0 23)).possibleWords.length
      < (initialState
          [Word.mk "alert".toList 0 23, Word.mk "later".toList 0 23]).possibleWords.length :=
  ⟨by decide, by decide, by decide,
   (pool_strictly_shrinks "later".toList
     (initialState [Word.mk "alert".toList 0 23, Word.mk "later".toList 0 23])
     (Word.mk "alert".toList 0 23) (by decide) (by decide) (by decide)).2.2⟩

/-! ## Invariants of the game loop -/

theorem mem_foldl_insert (l : List Char) :
    ∀ (acc : CharSet) (c : Char), c ∈ l.foldl CharSet.insert acc ↔ c ∈ acc ∨ c ∈ l := by
  induction l with
  | nil =>
    intro acc c
    simp
  | cons x rest ih =>
    intro acc c
    rw [List.foldl_cons, ih, CharSet.mem_insert, List.mem_cons]
    tauto

theorem mem_getGuessedLetters_aux (ws : List Word) :
    ∀ (acc : CharSet) (c : Char),
      c ∈ ws.foldl (fun guessedLetters word => word.word.foldl CharSet.insert guessedLetters) acc
        ↔ c ∈ acc ∨ ∃ w ∈ ws, c ∈ w.word := by
  induction ws with
  | nil =>
    intro acc c
    simp
  | cons x rest ih =>
    intro acc c
    rw [List.foldl_cons, ih, mem_foldl_insert]
    constructor
    · rintro ((h | h) | ⟨w, hw, hc⟩)
      · exact Or.inl h
      · exact Or.inr ⟨x, List.mem_cons_self x rest, h⟩
      · exact Or.inr ⟨w, List.mem_cons_of_mem x hw, hc⟩
    · rintro (h | ⟨w, hw, hc⟩)
      · exact Or.inl (Or.inl h)
      · rcases List.mem_cons.1 hw with rfl | hw'
        · exact Or.inl (Or.inr hc)
        · exact Or.inr ⟨w, hw', hc⟩

/-- The guessed letters are the letters of the guesses played. -/
theorem mem_getGuessedLetters (ws : List Word) (c : Char) :
    c ∈ getGuessedLetters ws ↔ ∃ w ∈ ws, c ∈ w.word := by
  unfold getGuessedLetters
  rw [mem_getGuessedLetters_aux]
  simp

theorem CppMap.mem_insertSorted_binding {κ ν : Type} [LT κ]
    [DecidableRel (fun a b : κ => a < b)]
    (k : κ) (v : ν) (m : CppMap κ ν) (p : κ × ν) :
    p ∈ CppMap.insertSorted k v m ↔ p = (k, v) ∨ p ∈ m := by
  induction m with
  | nil => simp [CppMap.insertSorted]
  | cons e rest ih =>
    obtain ⟨k0, v0⟩ := e
    unfold CppMap.insertSorted
    split
    · simp
    · simp only [List.mem_cons, ih]
      tauto

theorem CppMap.mem_of_mem_insert {κ ν : Type} [DecidableEq κ] [LT κ]
    [DecidableRel (fun a b : κ => a < b)] (m : CppMap κ ν) (k : κ) (v : ν) (p : κ × ν)
    (h : p ∈ CppMap.insert m k v) : p = (k, v) ∨ p ∈ m := by
  unfold CppMap.insert at h
  split at h
  · exact Or.inr h
  · exact (CppMap.mem_insertSorted_binding k v m p).1 h

theorem CppMap.mem_insert_of_mem {κ ν : Type} [DecidableEq κ] [LT κ]
    [DecidableRel (fun a b : κ => a < b)] (m : CppMap κ ν) (k : κ) (v : ν) (p : κ × ν)
    (h : p ∈ m) : p ∈ CppMap.insert m k v := by
  unfold CppMap.insert
  split
  · exact h
  · exact (CppMap.mem_insertSorted_binding k v m p).2 (Or.inr h)

theorem CppMap.mem_of_find? {κ ν : Type} [DecidableEq κ] (m : CppMap κ ν) (k : κ) (v : ν)
    (h : CppMap.find? m k = some v) : (k, v) ∈ m := by
  induction m with
  | nil => simp [CppMap.find?] at h
  | cons e rest ih =>
    obtain ⟨k0, v0⟩ := e
    unfold CppMap.find? at h
    by_cases hk : k0 = k
    · simp only [hk, if_true, Option.some.injEq] at h
      subst hk
      subst h
      exact List.mem_cons_self _ _
    · simp only [hk, if_false] at h
      exact List.mem_cons_of_mem _ (ih h)

/-- A binding present after one pass of the loop of `updateKnownPositions` was
there before or binds the index of the pass to the common letter of the target
and the guess. -/
theorem mem_updateKnownPositionsStep (g : Word) (t : List Char) (m : CppMap Int Char)
    (n : Nat) (p : Int × Char) (h : p ∈ updateKnownPositionsStep g t m n) :
    p ∈ m ∨ (p.1 = (n : Int) ∧ t[n]? = some p.2 ∧ g.word[n]? = some p.2) := by
  unfold updateKnownPositionsStep at h
  cases ha : t[n]? with
  | none =>
    simp only [ha] at h
    exact Or.inl h
  | some a =>
    cases hb : g.word[n]? with
    | none =>
      simp only [ha, hb] at h
      exact Or.inl h
    | some b =>
      simp only [ha, hb] at h
      split at h
      · rename_i hcond
        have hab : a = b := by
          simp only [Bool.and_eq_true, decide_eq_true_eq] at hcond
          exact hcond.1
        rcases CppMap.mem_of_mem_insert m (n : Int) a p h with rfl | hm
        · exact Or.inr ⟨rfl, rfl, by rw [hab]⟩
        · exact Or.inl hm
      · exact Or.inl h

theorem mem_updateKnownPositions_loop (g : Word) (t : List Char) (P : CppMap Int Char)
    (p : Int × Char) :
    ∀ n, p ∈ (List.range n).foldl (updateKnownPositionsStep g t) P →
      p ∈ P ∨ ∃ j : Nat, p.1 = (j : Int) ∧ t[j]? = some p.2 ∧ g.word[j]? = some p.2 := by
  intro n
  induction n with
  | zero =>
    intro h
    exact Or.inl h
  | succ n ih =>
    intro h
    rw [List.range_succ, List.foldl_append, List.foldl_cons, List.foldl_nil] at h
    rcases mem_updateKnownPositionsStep g t _ n p h with hm | hnew
    · exact ih hm
    · exact Or.inr ⟨n, hnew⟩

/-- A binding present after `updateKnownPositions` was there before or binds an
index to the common letter of the target and the guess at that index. -/
theorem mem_updateKnownPositions (g : Word) (t : List Char) (P : CppMap Int Char)
    (p : Int × Char) (h : p ∈ updateKnownPositions P g t) :
    p ∈ P ∨ ∃ j : Nat, p.1 = (j : Int) ∧ t[j]? = some p.2 ∧ g.word[j]? = some p.2 := by
  unfold updateKnownPositions at h
  split at h
  · exact Or.inl h
  · exact mem_updateKnownPositions_loop g t P p t.length h

theorem mem_of_getElem?_eq_some (l : List Char) (i : Nat) (c : Char) (h : l[i]? = some c) :
    c ∈ l := by
  rw [List.getElem?_eq_some] at h
  obtain ⟨hi, hc⟩ := h
  rw [← hc]
  exact List.getElem_mem hi

/-- The two ways a pass through the loop body ends: the `break` of the empty
guess, which leaves pool and constraint state as they were, or the second half
of the body for a guess with a non-empty word. -/
theorem playRound_cases (fuel : Nat) (t : List Char) (s s' : GameState) (st : Status)
    (h : playRound fuel t s = some (s', st)) :
    (st = Status.exhausted ∧ s'.possibleWords = s.possibleWords ∧
      s'.guessedWords = s.guessedWords ∧ s'.knownLetters = s.knownLetters ∧
      s'.knownPositions = s.knownPositions ∧ s'.excludedPositions = s.excludedPositions) ∨
    (∃ g, getMostRelevantWord fuel s.possibleWords = some g ∧ g.word ≠ [] ∧
      s' = applyGuess t { s with guesses := s.guesses + 1 } g ∧
      st = if t ≠ g.word then Status.running else Status.solved) := by
  unfold playRound at h
  cases hsel : getMostRelevantWord fuel s.possibleWords with
  | none => simp [hsel] at h
  | some g =>
    simp only [hsel] at h
    by_cases hempty : g.word.isEmpty = true
    · simp only [hempty, if_true, Option.some.injEq, Prod.mk.injEq] at h
      obtain ⟨hs, hst⟩ := h
      subst hs
      exact Or.inl ⟨hst.symm, rfl, rfl, rfl, rfl, rfl⟩
    · simp only [hempty, Bool.false_eq_true, if_false, Option.some.injEq, Prod.mk.injEq] at h
      obtain ⟨hs, hst⟩ := h
      refine Or.inr ⟨g, rfl, ?_, hs.symm, hst.symm⟩
      intro hnil
      exact hempty (by simp [hnil])

/-- The known letters stay guessed letters through the second half of the body. -/
theorem applyGuess_known_subset_guessed (t : List Char) (s : GameState) (g : Word)
    (h : ∀ c ∈ s.knownLetters, c ∈ getGuessedLetters s.guessedWords) :
    ∀ c ∈ (applyGuess t s g).knownLetters,
      c ∈ getGuessedLetters (applyGuess t s g).guessedWords := by
  intro c hc
  have hc2 : c ∈ updateKnownLetters s.knownLetters g t := hc
  have hgoal : c ∈ getGuessedLetters (s.guessedWords ++ [g]) := by
    rw [mem_getGuessedLetters]
    rcases (updateKnownLetters_loop_mem g.word t s.knownLetters c).1 hc2 with hk | ⟨_, hg⟩
    · obtain ⟨w, hw, hcw⟩ := (mem_getGuessedLetters s.guessedWords c).1 (h c hk)
      exact ⟨w, List.mem_append_left _ hw, hcw⟩
    · exact ⟨g, List.mem_append_right _ (List.mem_singleton_self g), hg⟩
  exact hgoal

/-- The letters of the known positions stay known letters through the second
half of the body. -/
theorem applyGuess_positions_known (t : List Char) (s : GameState) (g : Word)
    (h : ∀ p ∈ s.knownPositions, p.2 ∈ s.knownLetters) :
    ∀ p ∈ (applyGuess t s g).knownPositions, p.2 ∈ (applyGuess t s g).knownLetters := by
  intro p hp
  have hp2 : p ∈ updateKnownPositions s.knownPositions g t := hp
  have hgoal : p.2 ∈ updateKnownLetters s.knownLetters g t := by
    apply (updateKnownLetters_loop_mem g.word t s.knownLetters p.2).2
    rcases mem_updateKnownPositions g t s.knownPositions p hp2 with hold | ⟨j, _, htj, hgj⟩
    · exact Or.inl (h p hold)
    · exact Or.inr ⟨mem_of_getElem?_eq_some t j p.2 htj, mem_of_getElem?_eq_some g.word j p.2 hgj⟩
  exact hgoal

/-- C18: in every state that the game loop reaches from the empty constraint
state, every known letter is a guessed letter (a letter of `getGuessedLetters`
of the guess history), and every letter bound in the known positions is a known
letter. -/
theorem reachable_known_invariant (fuel : Nat) (targetWord : List Char) (pool : List Word)
    (s : GameState) (st : Status) (h : Reachable fuel targetWord pool s st) :
    (∀ c ∈ s.knownLetters, c ∈ getGuessedLetters s.guessedWords) ∧
    (∀ p ∈ s.knownPositions, p.2 ∈ s.knownLetters) ∧
    (∀ (i : Int) (c : Char), CppMap.find? s.knownPositions i = some c →
      c ∈ s.knownLetters) := by
  have main : (∀ c ∈ s.knownLetters, c ∈ getGuessedLetters s.guessedWords) ∧
      (∀ p ∈ s.knownPositions, p.2 ∈ s.knownLetters) := by
    induction h with
    | start =>
      constructor
      · intro c hc
        exact absurd hc (List.not_mem_nil c)
      · intro p hp
        exact absurd hp (List.not_mem_nil p)
    | round s0 s1 st1 _ hround ih =>
      rcases playRound_cases fuel targetWord s0 s1 st1 hround with
        ⟨_, _, hgw, hkl, hkp, _⟩ | ⟨g, _, _, hs1, _⟩
      · rw [hgw, hkl, hkp]
        exact ih
      · rw [hs1]
        exact ⟨applyGuess_known_subset_guessed targetWord _ g ih.1,
          applyGuess_positions_known targetWord _ g ih.2⟩
  refine ⟨main.1, main.2, ?_⟩
  intro i c hfind
  exact main.2 (i, c) (CppMap.mem_of_find? s.knownPositions i c hfind)

/-- The instance of C18 at the state after the first pass of the loop for the
pool `cater, later` and the target `later`: the guess is `cater`. -/
theorem reachable_known_invariant_witness :
    Reachable 1 "later".toList
      [Word.mk "cater".toList 0 9, Word.mk "later".toList 0 8]
      (applyGuess "later".toList
        { initialState [Word.mk "cater".toList 0 9, Word.mk "later".toList 0 8] with
          guesses := 1 }
        (Word.mk "cater".toList 0 9))
      Status.running ∧
    (∀ c ∈ (applyGuess "later".toList
        { initialState [Word.mk "cater".toList 0 9, Word.mk "later".toList 0 8] with
          guesses := 1 }
        (Word.mk "cater".toList 0 9)).knownLetters,
      c ∈ getGuessedLetters (applyGuess "later".toList
        { initialState [Word.mk "cater".toList 0 9, Word.mk "later".toList 0 8] with
          guesses := 1 }
        (Word.mk "cater".toList 0 9)).guessedWords) :=
  ⟨Reachable.round _ _ _ Reachable.start (by rfl),
   (reachable_known_invariant 1 "later".toList
      [Word.mk "cater".toList 0 9, Word.mk "later".toList 0 8] _ Status.running
      (Reachable.round _ _ _ Reachable.start (by rfl))).1⟩

/-! ## The target is never eliminated -/

theorem constraintsSound_initialState (t : List Char) (pool : List Word) :
    ConstraintsSound t (initialState pool) := by
  refine ⟨?_, ?_, ?_, ?_⟩
  · intro c hc
    exact absurd hc (List.not_mem_nil c)
  · intro g hg
    exact absurd hg (List.not_mem_nil g)
  · intro p hp
    exact absurd hp (List.not_mem_nil p)
  · intro i e he
    simp [initialState, CppMap.find?] at he

/-- No excluded set holds the target letter of its index after
`updateExcludedPositions`, when that was so before. -/
theorem updateExcludedPositions_sound (t : List Char) (E : CppMap Int CharSet) (g : Word)
    (h : ∀ (i : Nat) (e : CharSet), CppMap.find? E (i : Int) = some e →
      ∀ c ∈ e, t[i]? ≠ some c) :
    ∀ (i : Nat) (e : CharSet),
      CppMap.find? (updateExcludedPositions E g t) (i : Int) = some e →
      ∀ c ∈ e, t[i]? ≠ some c := by
  intro i e he c hc
  by_cases hlen : g.word.length = t.length
  · have hupd : updateExcludedPositions E g t
        = (List.range t.length).foldl (updateExcludedPositionsStep g t) E := by
      unfold updateExcludedPositions
      simp [hlen]
    have hloop := updateExcludedPositions_loop g t E hlen t.length (le_refl _) (i : Int)
    rw [hupd, hloop] at he
    by_cases hcond : 0 ≤ (i : Int) ∧ ((i : Int)).toNat < t.length ∧
        t[((i : Int)).toNat]? ≠ g.word[((i : Int)).toNat]?
    · rw [if_pos hcond] at he
      simp only [Int.toNat_ofNat] at he hcond
      obtain ⟨_, hi, hdiff⟩ := hcond
      have hb : g.word[i]? = some g.word[i] := List.getElem?_eq_getElem (by omega)
      rw [hb] at he hdiff
      simp only [Option.map_some', Option.some.injEq] at he
      rw [← he] at hc
      rcases (CharSet.mem_insert _ c _).1 hc with hcb | hold
      · rw [hcb]
        exact hdiff
      · cases hfind : CppMap.find? E (i : Int) with
        | none =>
          rw [hfind] at hold
          exact absurd hold (List.not_mem_nil c)
        | some e0 =>
          rw [hfind] at hold
          exact h i e0 hfind c hold
    · rw [if_neg hcond] at he
      exact h i e he c hc
  · have hupd : updateExcludedPositions E g t = E := by
      unfold updateExcludedPositions
      rw [if_pos hlen]
    rw [hupd] at he
    exact h i e he c hc

/-- The second half of the loop body keeps the constraint state sound. -/
theorem constraintsSound_applyGuess (t : List Char) (s : GameState) (g : Word)
    (h : ConstraintsSound t s) : ConstraintsSound t (applyGuess t s g) := by
  obtain ⟨hA, hB, hC, hD⟩ := h
  refine ⟨?_, ?_, ?_, ?_⟩
  · intro c hc
    have hc2 : c ∈ updateKnownLetters s.knownLetters g t := hc
    rcases (updateKnownLetters_loop_mem g.word t s.knownLetters c).1 hc2 with hk | ⟨ht, _⟩
    · exact hA c hk
    · exact ht
  · intro w hw c hcw hct
    have hw2 : w ∈ s.guessedWords ++ [g] := hw
    have hgoal : c ∈ updateKnownLetters s.knownLetters g t := by
      apply (updateKnownLetters_loop_mem g.word t s.knownLetters c).2
      rcases List.mem_append.1 hw2 with hold | hnew
      · exact Or.inl (hB w hold c hcw hct)
      · rw [List.mem_singleton.1 hnew] at hcw
        exact Or.inr ⟨hct, hcw⟩
    exact hgoal
  · intro p hp
    have hp2 : p ∈ updateKnownPositions s.knownPositions g t := hp
    rcases mem_updateKnownPositions g t s.knownPositions p hp2 with hold | ⟨j, hj, htj, _⟩
    · exact hC p hold
    · have hjlt : j < t.length := (List.getElem?_eq_some.1 htj).1
      refine ⟨by omega, by omega, ?_⟩
      rw [hj]
      simpa using htj
  · exact updateExcludedPositions_sound t s.excludedPositions g hD

/-- In a sound constraint state `isWordPossible` accepts every word whose
letters are the target. -/
theorem isWordPossible_of_sound (t : List Char) (s : GameState) (W : Word)
    (hW : W.word = t) (hmax : (t.length : Int) ≤ INT_MAX) (h : ConstraintsSound t s) :
    isWordPossible W (getGuessedLetters s.guessedWords) s.knownLetters s.knownPositions
      s.excludedPositions = true := by
  obtain ⟨hA, hB, hC, hD⟩ := h
  cases hres : isWordPossible W (getGuessedLetters s.guessedWords) s.knownLetters
      s.knownPositions s.excludedPositions with
  | true => rfl
  | false =>
    exfalso
    rw [isWordPossible_eq_false_iff_tests, hW] at hres
    have hkp : ∀ p ∈ s.knownPositions, 0 ≤ p.1 ∧ p.1 ≤ INT_MAX := by
      intro p hp
      obtain ⟨h0, h1, _⟩ := hC p hp
      exact ⟨h0, by omega⟩
    rcases hres with h1 | h2 | h3 | h4
    · obtain ⟨p, hp, hfail⟩ := (any_knownPositionFails_iff t s.knownPositions hkp).1 h1
      obtain ⟨h0, hlt, hget⟩ := hC p hp
      rcases hfail with hlen | hneq
      · omega
      · exact hneq hget
    · obtain ⟨i, e, c, _, he, hc, hce⟩ := (any_excludedPositionHits_iff t s.excludedPositions).1 h2
      exact hD i e he c hce hc
    · obtain ⟨c, hc, hct⟩ := (any_knownLetterMissing_iff t s.knownLetters).1 h3
      exact hct (hA c hc)
    · obtain ⟨c, hct, hcg, hck⟩ :=
        (excludedLetterPresent_iff t (getGuessedLetters s.guessedWords) s.knownLetters).1 h4
      obtain ⟨w, hw, hcw⟩ := (mem_getGuessedLetters s.guessedWords c).1 hcg
      exact hck (hB w hw c hcw hct)

/-- A pool word whose letters are the target stays in the pool through the
second half of the loop body. -/
theorem target_mem_applyGuess (t : List Char) (s : GameState) (g W : Word)
    (hW : W.word = t) (hmax : (t.length : Int) ≤ INT_MAX) (h : ConstraintsSound t s)
    (hmem : W ∈ s.possibleWords) : W ∈ (applyGuess t s g).possibleWords := by
  have hsound := constraintsSound_applyGuess t s g h
  have hacc := isWordPossible_of_sound t (applyGuess t s g) W hW hmax hsound
  have hpool : (applyGuess t s g).possibleWords
      = s.possibleWords.filter (fun w =>
          isWordPossible w (getGuessedLetters (applyGuess t s g).guessedWords)
            (applyGuess t s g).knownLetters (applyGuess t s g).knownPositions
            (applyGuess t s g).excludedPositions) := by
    unfold applyGuess
    exact getPossibleWords_eq_filter _ _ _ _ _
  rw [hpool, List.mem_filter]
  exact ⟨hmem, hacc⟩

theorem foldl_applyGuess_sound (t : List Char) (hmax : (t.length : Int) ≤ INT_MAX)
    (W : Word) (hW : W.word = t) (gs : List Word) :
    ∀ s : GameState, ConstraintsSound t s →
      ConstraintsSound t (gs.foldl (applyGuess t) s) ∧
      (W ∈ s.possibleWords → W ∈ (gs.foldl (applyGuess t) s).possibleWords) := by
  induction gs with
  | nil =>
    intro s hs
    exact ⟨hs, fun h => h⟩
  | cons g rest ih =>
    intro s hs
    rw [List.foldl_cons]
    obtain ⟨h1, h2⟩ := ih (applyGuess t s g) (constraintsSound_applyGuess t s g hs)
    exact ⟨h1, fun hmem => h2 (target_mem_applyGuess t s g W hW hmax hs hmem)⟩

/-- C19: in the constraint state built from the empty state by the loop body
for each guess of any sequence (the guessed letters from the guess history, the
three updates against the target `t`), `isWordPossible` accepts `t`; hence a
pool word with the letters of `t` that is in the initial pool is in the pool
after every round.  The lengths of the guesses play no part; the length of the
target is taken within the range of `int`. -/
theorem target_never_eliminated (targetWord : List Char) (pool : List Word)
    (guessSequence : List Word) (W : Word) (hW : W.word = targetWord)
    (hmax : (targetWord.length : Int) ≤ INT_MAX) :
    isWordPossible W
        (getGuessedLetters (stateAfter targetWord pool guessSequence).guessedWords)
        (stateAfter targetWord pool guessSequence).knownLetters
        (stateAfter targetWord pool guessSequence).knownPositions
        (stateAfter targetWord pool guessSequence).excludedPositions = true ∧
    (W ∈ pool → W ∈ (stateAfter targetWord pool guessSequence).possibleWords) := by
  obtain ⟨hsound, hpool⟩ := foldl_applyGuess_sound targetWord hmax W hW guessSequence
    (initialState pool) (constraintsSound_initialState targetWord pool)
  exact ⟨isWordPossible_of_sound targetWord _ W hW hmax hsound, hpool⟩

/-- The instance of C19 at the target `later` after the guesses `alert` and
`cater`, from the pool `alert, cater, later`. -/
theorem target_never_eliminated_witness :
    (Word.mk "later".toList 0 23).word = "later".toList ∧
    (("later".toList.length : Nat) : Int) ≤ INT_MAX ∧
    (Word.mk "later".toList 0 23 ∈
      (stateAfter "later".toList
        [Word.mk "alert".toList 0 23, Word.mk "cater".toList 0 21, Word.mk "later".toList 0 23]
        [Word.mk "alert".toList 0 23, Word.mk "cater".toList 0 21]).possibleWords) :=
  ⟨rfl, by decide,
   (target_never_eliminated "later".toList
      [Word.mk "alert".toList 0 23, Word.mk "cater".toList 0 21, Word.mk "later".toList 0 23]
      [Word.mk "alert".toList 0 23, Word.mk "cater".toList 0 21]
      (Word.mk "later".toList 0 23) rfl (by decide)).2 (by decide)⟩

/-! ## Termination of the game loop -/

theorem getWords_eq_map (wordsList : List (List Char)) :
    getWords wordsList
      = wordsList.map (fun w =>
          Word.mk w (getDuplicates w) (getRanking (getLetterCount wordsList) w)) := by
  unfold getWords
  have h := foldl_append_map
    (fun w : List Char => Word.mk w (getDuplicates w) (getRanking (getLetterCount wordsList) w))
    wordsList []
  simp only [List.nil_append] at h
  exact h

/-- The duplicate count of a non-empty word is below its length. -/
theorem getDuplicates_lt_length (w : List Char) (hne : w ≠ []) :
    0 ≤ getDuplicates w ∧ getDuplicates w < (w.length : Int) := by
  have h := getDuplicates_loop w [] [] 0 (by intro d; simp [CppMap.find?])
  simp only [List.nil_append, List.toFinset_nil, Finset.card_empty] at h
  have hcard : w.toFinset.card ≤ w.length := List.toFinset_card_le w
  have hpos : 0 < w.toFinset.card := by
    cases w with
    | nil => exact absurd rfl hne
    | cons x xs =>
      exact Finset.card_pos.2 ⟨x, List.mem_toFinset.2 (List.mem_cons_self x xs)⟩
  have hd : getDuplicates w = (w.foldl getDuplicatesStep ([], 0)).2 := rfl
  rw [← hd] at h
  push_cast at h
  constructor <;> omega

/-- One pass of the loop body under the invariant: the selector returns a pool
word, the `break` is not taken, the invariant is kept, and the pool gets
strictly smaller unless the guess is the target. -/
theorem playRound_of_invariant (fuel : Nat) (t : List Char) (T : Word) (hT : T.word = t)
    (hTd : T.duplicates.toNat < fuel) (hne : t ≠ [])
    (hmax : (t.length : Int) ≤ INT_MAX) (s : GameState) (hs : LoopInvariant t T s) :
    ∃ s' st, playRound fuel t s = some (s', st) ∧ st ≠ Status.exhausted ∧
      LoopInvariant t T s' ∧ s'.guesses = s.guesses + 1 ∧
      (st = Status.solved → s'.currentGuess.word = t) ∧
      (st = Status.running → s'.possibleWords.length < s.possibleWords.length) := by
  obtain ⟨hsound, hTmem, hlens⟩ := hs
  have hpool : s.possibleWords ≠ [] := List.ne_nil_of_mem hTmem
  obtain ⟨k, hk, hmin⟩ := exists_least_threshold s.possibleWords hpool
  have hkT : k ≤ T.duplicates.toNat := by
    by_contra hlt
    exact hmin T.duplicates.toNat (by omega) T hTmem (Int.self_le_toNat T.duplicates)
  obtain ⟨g, hg, _, _, hret⟩ := getMostRelevantWord_at s.possibleWords k hk hmin
  have hsel : getMostRelevantWord fuel s.possibleWords = some g := hret fuel (by omega)
  have hglen : g.word.length = t.length := hlens g hg
  have hgne : g.word.isEmpty = false := by
    cases hgw : g.word with
    | nil =>
      rw [hgw] at hglen
      exact absurd (List.length_eq_zero.1 hglen.symm) hne
    | cons x xs => rfl
  have hround : playRound fuel t s
      = some (applyGuess t { s with guesses := s.guesses + 1 } g,
          if t ≠ g.word then Status.running else Status.solved) := by
    unfold playRound
    simp only [hsel, hgne, Bool.false_eq_true, if_false]
  have hsound1 : ConstraintsSound t { s with guesses := s.guesses + 1 } := hsound
  have hpool_eq : (applyGuess t { s with guesses := s.guesses + 1 } g).possibleWords
      = s.possibleWords.filter (fun w =>
          isWordPossible w
            (getGuessedLetters
              (applyGuess t { s with guesses := s.guesses + 1 } g).guessedWords)
            (applyGuess t { s with guesses := s.guesses + 1 } g).knownLetters
            (applyGuess t { s with guesses := s.guesses + 1 } g).knownPositions
            (applyGuess t { s with guesses := s.guesses + 1 } g).excludedPositions) := by
    unfold applyGuess
    exact getPossibleWords_eq_filter _ _ _ _ _
  refine ⟨_, _, hround, ?_, ⟨?_, ?_, ?_⟩, rfl, ?_, ?_⟩
  · by_cases htg : t ≠ g.word
    · rw [if_pos htg]
      exact fun h => Status.noConfusion h
    · rw [if_neg htg]
      exact fun h => Status.noConfusion h
  · exact constraintsSound_applyGuess t _ g hsound1
  · exact target_mem_applyGuess t { s with guesses := s.guesses + 1 } g T hT hmax hsound1 hTmem
  · intro v hv
    rw [hpool_eq] at hv
    exact hlens v (List.mem_filter.1 hv).1
  · intro hst
    by_cases htg : t ≠ g.word
    · rw [if_pos htg] at hst
      exact Status.noConfusion hst
    · have : t = g.word := not_not.1 htg
      exact this.symm
  · intro hst
    by_cases htg : t ≠ g.word
    · exact (applyGuess_removes_guess t { s with guesses := s.guesses + 1 } g hg hglen htg).2.2
    · rw [if_neg htg] at hst
      exact Status.noConfusion hst

/-- Under the invariant the loop ends `solved` within as many passes as the
pool has words. -/
theorem gameLoop_of_invariant (fuel : Nat) (t : List Char) (T : Word) (hT : T.word = t)
    (hTd : T.duplicates.toNat < fuel) (hne : t ≠ [])
    (hmax : (t.length : Int) ≤ INT_MAX) :
    ∀ (rounds : Nat) (s : GameState), LoopInvariant t T s →
      s.possibleWords.length ≤ rounds →
      ∃ s', gameLoop fuel t rounds s = some (s', Status.solved) ∧
        s'.currentGuess.word = t ∧ s.guesses < s'.guesses ∧
        s'.guesses ≤ s.guesses + s.possibleWords.length := by
  intro rounds
  induction rounds with
  | zero =>
    intro s hs hlen
    have hpos : 0 < s.possibleWords.length := List.length_pos_of_mem hs.2.1
    omega
  | succ n ih =>
    intro s hs hlen
    have hpos : 0 < s.possibleWords.length := List.length_pos_of_mem hs.2.1
    obtain ⟨s1, st, hround, hnex, hinv, hguess, hsolved, hrun⟩ :=
      playRound_of_invariant fuel t T hT hTd hne hmax s hs
    cases st with
    | running =>
      have hshrink := hrun rfl
      obtain ⟨s2, hloop, hword, hg1, hg2⟩ := ih s1 hinv (by omega)
      refine ⟨s2, ?_, hword, by omega, by omega⟩
      unfold gameLoop
      simp only [hround]
      exact hloop
    | solved =>
      refine ⟨s1, ?_, hsolved rfl, by omega, by omega⟩
      unfold gameLoop
      simp only [hround]
    | exhausted => exact absurd rfl hnex

/-- Under the invariant at the start, no pass of the loop takes the `break` of
the empty guess, and the invariant holds whenever the loop goes on. -/
theorem reachable_of_invariant (fuel : Nat) (t : List Char) (T : Word) (hT : T.word = t)
    (hTd : T.duplicates.toNat < fuel) (hne : t ≠ [])
    (hmax : (t.length : Int) ≤ INT_MAX) (pool : List Word)
    (hinit : LoopInvariant t T (initialState pool)) (s : GameState) (st : Status)
    (h : Reachable fuel t pool s st) :
    st ≠ Status.exhausted ∧ LoopInvariant t T s := by
  induction h with
  | start => exact ⟨fun h => Status.noConfusion h, hinit⟩
  | round s0 s1 st1 _ hround ih =>
    obtain ⟨s1', st1', hround', hnex, hinv, _⟩ :=
      playRound_of_invariant fuel t T hT hTd hne hmax s0 ih.2
    rw [hround] at hround'
    simp only [Option.some.injEq, Prod.mk.injEq] at hround'
    obtain ⟨hs, hst⟩ := hround'
    rw [hs, hst]
    exact ⟨hnex, hinv⟩

/-- C20: for a dictionary whose words all have one length `L >= 1` (within the
range of `int`) and a target taken from it, the game loop started on
`getWords` of the dictionary ends in the `solved` state, its last guess being
the target, after at least one and at most as many guesses as the dictionary
has words (selector fuel `L` and that many passes suffice); and no pass of the
loop takes the `break` of the empty guess, that is, the selector never returns
the sentinel. -/
theorem game_loop_solves (dictionary : List (List Char)) (L : Nat) (hL : 1 ≤ L)
    (hmax : (L : Int) ≤ INT_MAX) (hlen : ∀ w ∈ dictionary, w.length = L)
    (targetWord : List Char) (ht : targetWord ∈ dictionary) (fuel : Nat) (hfuel : L ≤ fuel) :
    (∀ rounds, dictionary.length ≤ rounds →
      ∃ s, gameLoop fuel targetWord rounds (initialState (getWords dictionary))
          = some (s, Status.solved) ∧
        s.currentGuess.word = targetWord ∧ 1 ≤ s.guesses ∧ s.guesses ≤ dictionary.length) ∧
    (∀ s st, Reachable fuel targetWord (getWords dictionary) s st →
      st ≠ Status.exhausted) := by
  have htlen : targetWord.length = L := hlen targetWord ht
  have hne : targetWord ≠ [] := by
    intro h
    rw [h] at htlen
    simp at htlen
    omega
  have hmax' : (targetWord.length : Int) ≤ INT_MAX := by
    rw [htlen]
    exact hmax
  have hwords := getWords_eq_map dictionary
  have hTmem : Word.mk targetWord (getDuplicates targetWord)
      (getRanking (getLetterCount dictionary) targetWord) ∈ getWords dictionary := by
    rw [hwords]
    exact List.mem_map.2 ⟨targetWord, ht, rfl⟩
  have hTd : (Word.mk targetWord (getDuplicates targetWord)
      (getRanking (getLetterCount dictionary) targetWord)).duplicates.toNat < fuel := by
    have hb := getDuplicates_lt_length targetWord hne
    have : (getDuplicates targetWord).toNat < targetWord.length := by omega
    show (getDuplicates targetWord).toNat < fuel
    omega
  have hinit : LoopInvariant targetWord
      (Word.mk targetWord (getDuplicates targetWord)
        (getRanking (getLetterCount dictionary) targetWord))
      (initialState (getWords dictionary)) := by
    refine ⟨constraintsSound_initialState targetWord _, hTmem, ?_⟩
    intro v hv
    have hv2 : v ∈ getWords dictionary := hv
    rw [hwords] at hv2
    obtain ⟨w, hw, hvw⟩ := List.mem_map.1 hv2
    rw [← hvw]
    show w.length = targetWord.length
    rw [hlen w hw, htlen]
  have hpoollen : (initialState (getWords dictionary)).possibleWords.length
      = dictionary.length := by
    show (getWords dictionary).length = dictionary.length
    rw [hwords, List.length_map]
  constructor
  · intro rounds hrounds
    obtain ⟨s, hloop, hword, hg1, hg2⟩ := gameLoop_of_invariant fuel targetWord _ rfl hTd hne
      hmax' rounds (initialState (getWords dictionary)) hinit (by omega)
    have h0 : (initialState (getWords dictionary)).guesses = 0 := rfl
    exact ⟨s, hloop, hword, by omega, by omega⟩
  · intro s st hreach
    exact (reachable_of_invariant fuel targetWord _ rfl hTd hne hmax' (getWords dictionary)
      hinit s st hreach).1

/-- The instance of C20 at the dictionary `alert, alter, later, learn, rates`
and the target `later`, with selector fuel 5 and 5 passes. -/
theorem game_loop_solves_witness :
    (1 ≤ 5) ∧ ((5 : Nat) : Int) ≤ INT_MAX ∧
    (∀ w ∈ ["alert", "alter", "later", "learn", "rates"].map String.toList, w.length = 5) ∧
    "later".toList ∈ ["alert", "alter", "later", "learn", "rates"].map String.toList ∧
    ∃ s, gameLoop 5 "later".toList 5
          (initialState
            (getWords (["alert", "alter", "later", "learn", "rates"].map String.toList)))
          = some (s, Status.solved) ∧
        s.currentGuess.word = "later".toList ∧ 1 ≤ s.guesses ∧
        s.guesses ≤ (["alert", "alter", "later", "learn", "rates"].map String.toList).length :=
  ⟨by decide, by decide, by decide, by decide,
   (game_loop_solves (["alert", "alter", "later", "learn", "rates"].map String.toList) 5
      (by decide) (by decide) (by decide) "later".toList (by decide) 5 (le_refl 5)).1 5
      (by decide)⟩

end Wordle
